import Mathlib

/-!
Audit-Tool: name reconciliation and report generation (`src/app.js`)

A shallow embedding of the pure core of `src/app.js`:
`normalizeName`, `toSetCaseInsensitive`, `compareNameSets`, `compareSides`,
`formatList`, `buildTextReport`, `makeSheetName` and `buildExcelWorkbook`.

Modelling conventions.

* A JavaScript string is a sequence of UTF-16 code units; it is modelled as a
  list of natural numbers, one per code unit (`JSString`).  `js` turns a Lean
  string literal of BMP characters into that representation.
* A JavaScript `Set` is modelled by the list of its elements in insertion
  order, a `Map` by the list of its entries in insertion order.
* `String.prototype.localeCompare` is provided by the host; it is a parameter
  `localeCompare : JSString → JSString → Int` of every function that sorts.
* `Array.prototype.sort(comparefn)` is a stable sort; it is modelled by a
  stable insertion sort that places `a` before `b` when `comparefn a b ≤ 0`.
* The `while` loop of `makeSheetName` is run with explicit fuel.
-/

namespace AuditTool

/-! ## Strings -/

/-- A JavaScript string: the list of its UTF-16 code units. -/
abbrev JSString := List Nat

/-- The code units of a string literal made of BMP characters. -/
def js (s : String) : JSString := s.toList.map Char.toNat

/-- The characters matched by `\s` and removed by `String.prototype.trim`:
ECMAScript WhiteSpace (TAB, VT, FF, SP, NBSP, ZWNBSP and the Unicode space
separators) together with LineTerminator (LF, CR, LS, PS). -/
def isWhiteSpace (c : Nat) : Bool :=
  c == 9 || c == 10 || c == 11 || c == 12 || c == 13 || c == 32 || c == 160 ||
  c == 5760 || (8192 ≤ c && c ≤ 8202) || c == 8232 || c == 8233 || c == 8239 ||
  c == 8287 || c == 12288 || c == 65279

/-- The character class `[a-zA-Z]`. -/
def isAsciiLetter (c : Nat) : Bool := (97 ≤ c && c ≤ 122) || (65 ≤ c && c ≤ 90)

/-- The character class `[0-9]`. -/
def isAsciiDigit (c : Nat) : Bool := 48 ≤ c && c ≤ 57

/-- The characters kept by `.replace(/[^a-zA-Z0-9\s]/g, '')`. -/
def isKept (c : Nat) : Bool := isAsciiLetter c || isAsciiDigit c || isWhiteSpace c

/-- `String.prototype.trim`. -/
def trim (s : JSString) : JSString :=
  ((s.dropWhile isWhiteSpace).reverse.dropWhile isWhiteSpace).reverse

/-- `.replace(/[^a-zA-Z0-9\s]/g, '')`: delete every code unit outside the class. -/
def stripNonAlnum (s : JSString) : JSString := s.filter isKept

/-- Worker of `collapseSpaces`; `inRun` tells that the previous code unit was
whitespace, so that the current run has already produced its single space. -/
def collapseAux : Bool → JSString → JSString
  | _, [] => []
  | inRun, c :: cs =>
    if isWhiteSpace c then
      (if inRun then collapseAux true cs else 32 :: collapseAux true cs)
    else c :: collapseAux false cs

/-- `.replace(/\s+/g, ' ')`: every maximal run of whitespace becomes one space. -/
def collapseSpaces (s : JSString) : JSString := collapseAux false s

/-- Lower-casing of one code unit.  `toLowerCase` is only ever applied to the
output of `stripNonAlnum`, whose code units are ASCII letters, ASCII digits and
whitespace; on those it maps `A`-`Z` to `a`-`z` and fixes everything else. -/
def lowerUnit (c : Nat) : Nat := if 65 ≤ c ∧ c ≤ 90 then c + 32 else c

/-- `String.prototype.toLowerCase` on the strings it is applied to here. -/
def toLowerCase (s : JSString) : JSString := s.map lowerUnit

/-- `normalizeName(name)` (app.js 54-61). -/
def normalizeName (name : JSString) : JSString :=
  if name = [] then []
  else toLowerCase (collapseSpaces (stripNonAlnum (trim name)))

/-! ## Sets, maps and sorting -/

/-- `set.has(x)`. -/
def setHas (set : List JSString) (x : JSString) : Bool := decide (x ∈ set)

/-- `set.add(x)`: a new element goes to the end of the insertion order. -/
def setAdd (set : List JSString) (x : JSString) : List JSString :=
  if x ∈ set then set else set ++ [x]

/-- `new Set(items)`. -/
def newSet (items : List JSString) : List JSString := items.foldl setAdd []

/-- `map.has(key)`. -/
def mapHas {β : Type} (m : List (JSString × β)) (key : JSString) : Bool :=
  m.any (fun e => decide (e.1 = key))

/-- `map.get(key)`; `none` stands for `undefined`. -/
def mapGet {β : Type} (m : List (JSString × β)) (key : JSString) : Option β :=
  (m.find? (fun e => decide (e.1 = key))).map Prod.snd

/-- `map.set(key, value)`: an existing key keeps its position and takes the
new value, a new key goes to the end. -/
def mapSet {β : Type} : List (JSString × β) → JSString → β → List (JSString × β)
  | [], key, value => [(key, value)]
  | e :: m, key, value =>
    if e.1 = key then (key, value) :: m else e :: mapSet m key value

/-- `arr.sort(comparefn)`: stable, `a` before `b` when `comparefn a b ≤ 0`. -/
def sortBy {α : Type} (comparefn : α → α → Int) (arr : List α) : List α :=
  arr.insertionSort (fun a b => comparefn a b ≤ 0)

/-! ## SetReconciler -/

/-- `toSetCaseInsensitive(names)` (app.js 70-77). -/
def toSetCaseInsensitive (names : List JSString) : List JSString :=
  names.foldl
    (fun set n =>
      let norm := normalizeName n
      if norm ≠ [] then setAdd set norm else set)
    []

/-- The loops of app.js 87-96 that build `originalLeftMap` / `originalRightMap`:
the first raw spelling seen for each non-empty key. -/
def originalMap (names : List JSString) : List (JSString × JSString) :=
  names.foldl
    (fun m n =>
      let key := normalizeName n
      if key ≠ [] ∧ mapHas m key = false then mapSet m key n else m)
    []

/-- The expression `originalMap.get(key) || key`. -/
def render (m : List (JSString × JSString)) (key : JSString) : JSString :=
  match mapGet m key with
  | some n => if n ≠ [] then n else key
  | none => key

/-- The result record of `compareNameSets`. -/
structure SectionComparison where
  inBoth : List JSString
  onlyLeft : List JSString
  onlyRight : List JSString
  exactSame : Bool
  deriving DecidableEq, Repr

/-- The loop of app.js 98-101: every key of `leftSet`, in insertion order, is
pushed to `inBoth` or to `onlyLeft`.  The state is `(inBoth, onlyLeft)`. -/
def splitLeft (leftSet rightSet : List JSString) (originalLeftMap : List (JSString × JSString)) :
    List JSString × List JSString :=
  leftSet.foldl
    (fun acc key =>
      if setHas rightSet key then (acc.1 ++ [render originalLeftMap key], acc.2)
      else (acc.1, acc.2 ++ [render originalLeftMap key]))
    ([], [])

/-- The loop of app.js 102-104: the keys of `rightSet` that `leftSet` lacks. -/
def splitRight (leftSet rightSet : List JSString) (originalRightMap : List (JSString × JSString)) :
    List JSString :=
  rightSet.foldl
    (fun acc key =>
      if setHas leftSet key = false then acc ++ [render originalRightMap key] else acc)
    []

/-- `compareNameSets(leftNames, rightNames)` (app.js 79-113). -/
def compareNameSets (localeCompare : JSString → JSString → Int)
    (leftNames rightNames : List JSString) : SectionComparison :=
  let leftSet := toSetCaseInsensitive leftNames
  let rightSet := toSetCaseInsensitive rightNames
  let originalLeftMap := originalMap leftNames
  let originalRightMap := originalMap rightNames
  let lr := splitLeft leftSet rightSet originalLeftMap
  let inBoth := sortBy localeCompare lr.1
  let onlyLeft := sortBy localeCompare lr.2
  let onlyRight := sortBy localeCompare (splitRight leftSet rightSet originalRightMap)
  let exactSame := decide (leftSet.length = rightSet.length) && decide (inBoth.length = leftSet.length)
  { inBoth := inBoth, onlyLeft := onlyLeft, onlyRight := onlyRight, exactSame := exactSame }

/-- A concrete comparator for worked examples: code-unit lexicographic order
of the ASCII-lower-cased strings, negative / zero / positive like
`localeCompare`. -/
def sampleCompare : JSString → JSString → Int
  | [], [] => 0
  | [], _ :: _ => -1
  | _ :: _, [] => 1
  | a :: s, b :: t =>
    if lowerUnit a < lowerUnit b then -1
    else if lowerUnit b < lowerUnit a then 1
    else sampleCompare s t

/-! ## PlanReconciler -/

/-- The four section keys (`SECTION_KEYS`, app.js 2). -/
inductive SectionKey where
  | customerOnly
  | invoiceOnly
  | unreconciled
  | reconciled
  deriving DecidableEq, Repr

/-- `SECTION_KEYS` in declaration order. -/
def SECTION_KEYS : List SectionKey :=
  [SectionKey.customerOnly, SectionKey.invoiceOnly, SectionKey.unreconciled, SectionKey.reconciled]

/-- `SECTION_TITLES` (app.js 3-8). -/
def SECTION_TITLES : SectionKey → JSString
  | SectionKey.customerOnly => js "Customer Only"
  | SectionKey.invoiceOnly => js "Invoice Only"
  | SectionKey.unreconciled => js "Unreconciled"
  | SectionKey.reconciled => js "Reconciled"

/-- A plan record `{ planName, sections }` as `collectSideData` builds it. -/
structure Plan where
  planName : JSString
  sections : SectionKey → List JSString

/-- A result record `{ planName, sections }` of `compareSides`. -/
structure PlanComparison where
  planName : JSString
  sections : SectionKey → SectionComparison

/-- The local function `byName` of `compareSides` (app.js 203-207). -/
def byName (arr : List Plan) : List (JSString × Plan) :=
  arr.foldl (fun m p => mapSet m (trim p.planName) p) []

/-- `compareSides(onekonnectPlans, puzzlePlans)` (app.js 197-224). -/
def compareSides (localeCompare : JSString → JSString → Int)
    (onekonnectPlans puzzlePlans : List Plan) : List PlanComparison :=
  let allPlanNames := newSet
    (onekonnectPlans.map (fun p => trim p.planName) ++ puzzlePlans.map (fun p => trim p.planName))
  let leftMap := byName onekonnectPlans
  let rightMap := byName puzzlePlans
  (sortBy localeCompare allPlanNames).map (fun name =>
    let left := mapGet leftMap name
    let right := mapGet rightMap name
    { planName := name
      sections := fun key =>
        let leftNames := match left with
          | some p => p.sections key
          | none => []
        let rightNames := match right with
          | some p => p.sections key
          | none => []
        compareNameSets localeCompare leftNames rightNames })

/-! ## ReportFormatter -/

/-- `arr.join(sep)`. -/
def join (sep : JSString) : List JSString → JSString
  | [] => []
  | [x] => x
  | x :: y :: rest => x ++ sep ++ join sep (y :: rest)

/-- `formatList(values)` (app.js 226-228). -/
def formatList (values : List JSString) : JSString :=
  if values.length ≠ 0 then join (js ", ") values else js "None"

/-- The status expression of app.js 247. -/
def sectionState (sec : SectionComparison) : JSString :=
  if sec.exactSame then js "Exact match"
  else if sec.inBoth.length ≠ 0 then js "Partial overlap"
  else if sec.onlyLeft.length ≠ 0 ∨ sec.onlyRight.length ≠ 0 then js "No overlap"
  else js "Empty on both"

/-- The four lines pushed for one section (app.js 245-251). -/
def sectionLines (plan : PlanComparison) (key : SectionKey) : List JSString :=
  let sec := plan.sections key
  let title := SECTION_TITLES key
  let state := sectionState sec
  [ js "- " ++ title ++ js ": " ++ state,
    js "  In Both: " ++ formatList sec.inBoth,
    js "  Only OneKonnect: " ++ formatList sec.onlyLeft,
    js "  Only Puzzle: " ++ formatList sec.onlyRight ]

/-- The lines pushed for one plan (app.js 243-253). -/
def planLines (plan : PlanComparison) : List JSString :=
  [js "=== Plan: " ++ plan.planName ++ js " ==="]
    ++ SECTION_KEYS.flatMap (sectionLines plan)
    ++ [js ""]

/-- The array `lines` of `buildTextReport` just before it is joined;
`generated` is `new Date().toISOString()`. -/
def reportLines (generated : JSString) (results : List PlanComparison) : List JSString :=
  let header := [js "Plan Comparator Report", js "Generated: " ++ generated, js ""]
  if results.length = 0 then header ++ [js "No plans to compare."]
  else header ++ results.flatMap planLines

/-- `buildTextReport(results)` (app.js 230-256). -/
def buildTextReport (generated : JSString) (results : List PlanComparison) : JSString :=
  join [10] (reportLines generated results)

/-! ## WorkbookBuilder -/

/-- The character class `[\\/?*\[\]:]` of `makeSheetName`. -/
def isIllegalSheetChar (c : Nat) : Bool :=
  c == 92 || c == 47 || c == 63 || c == 42 || c == 91 || c == 93 || c == 58

/-- `.replace(/[\\/?*\[\]:]/g, ' ')`. -/
def replaceIllegal (s : JSString) : JSString :=
  s.map (fun c => if isIllegalSheetChar c then 32 else c)

/-- The constant `cleaned` of `makeSheetName` (app.js 259-262). -/
def cleanedSheetName (planName : JSString) : JSString :=
  let s := (trim (replaceIllegal (if planName = [] then js "Plan" else planName))).take 31
  if s = [] then js "Plan" else s

/-- Decimal digits of `n`, most significant first; `fuel` bounds the number
of digits. -/
def decimalDigits : Nat → Nat → JSString
  | 0, _ => []
  | fuel + 1, n =>
    if n < 10 then [48 + n] else decimalDigits fuel (n / 10) ++ [48 + n % 10]

/-- The text `counter` takes in a template literal: the decimal numeral of a
non-negative integer (the form `Number` values below `10 ^ 21` print in; the
counter never exceeds the size of `existingNames` plus one). -/
def numberToString (n : Nat) : JSString := decimalDigits (n + 1) n

/-- The suffix built at app.js 266. -/
def sheetSuffix (counter : Nat) : JSString :=
  js " (" ++ numberToString counter ++ js ")"

/-- The candidate built at app.js 266-268 for a value of `counter`; the
truncated subtraction is `Math.max(0, 31 - suffix.length)`. -/
def sheetCandidate (cleaned : JSString) (counter : Nat) : JSString :=
  let suffix := sheetSuffix counter
  let base := cleaned.take (31 - suffix.length)
  base ++ suffix

/-- The `while` loop of app.js 265-270 with state `(candidate, counter)`;
`none` when the fuel runs out before the loop exits. -/
def sheetLoop (cleaned : JSString) (existingNames : List JSString) :
    Nat → JSString → Nat → Option JSString
  | 0, _, _ => none
  | fuel + 1, candidate, counter =>
    if setHas existingNames candidate then
      sheetLoop cleaned existingNames fuel (sheetCandidate cleaned counter) (counter + 1)
    else some candidate

/-- `makeSheetName(planName, existingNames)` (app.js 258-273): the name
returned and the set `existingNames` after the call. -/
def makeSheetName (fuel : Nat) (planName : JSString) (existingNames : List JSString) :
    Option (JSString × List JSString) :=
  let cleaned := cleanedSheetName planName
  (sheetLoop cleaned existingNames fuel cleaned 1).map
    (fun candidate => (candidate, setAdd existingNames candidate))

/-- An entry `{ name, result }` of a section's column pair. -/
structure Entry where
  name : JSString
  result : JSString
  deriving DecidableEq, Repr

/-- A sheet appended to the workbook: its name and the rows given to
`aoa_to_sheet`. -/
structure Sheet where
  name : JSString
  rows : List (List JSString)
  deriving DecidableEq, Repr

/-- The header row (app.js 293). -/
def headerRow : List JSString :=
  [js "Reconciled", js "Result", js "Unreconciled", js "Result",
   js "Customer Only", js "Result", js "Invoice Only", js "Result"]

/-- The keys of `sectionOrder` (app.js 296-301). -/
def sectionOrder : List SectionKey :=
  [SectionKey.reconciled, SectionKey.unreconciled, SectionKey.customerOnly, SectionKey.invoiceOnly]

/-- `columnIndexes[key].nameCol` (app.js 303-308). -/
def nameCol : SectionKey → Nat
  | SectionKey.reconciled => 0
  | SectionKey.unreconciled => 2
  | SectionKey.customerOnly => 4
  | SectionKey.invoiceOnly => 6

/-- `columnIndexes[key].resultCol` (app.js 303-308). -/
def resultCol : SectionKey → Nat
  | SectionKey.reconciled => 1
  | SectionKey.unreconciled => 3
  | SectionKey.customerOnly => 5
  | SectionKey.invoiceOnly => 7

/-- `names.forEach(name => entries.push({ name, result }))`. -/
def pushAll (entries : List Entry) (names : List JSString) (result : JSString) : List Entry :=
  names.foldl (fun es name => es ++ [{ name := name, result := result }]) entries

/-- The array `entries` of one section (app.js 312-317). -/
def sectionEntries (sec : SectionComparison) : List Entry :=
  pushAll (pushAll (pushAll [] sec.inBoth (js "In Both")) sec.onlyLeft (js "Only OneKonnect"))
    sec.onlyRight (js "Only Puzzle")

/-- `perSectionRows` (app.js 310-322). -/
def perSectionRows (plan : PlanComparison) : List (SectionKey × List Entry) :=
  sectionOrder.map (fun key => (key, sectionEntries (plan.sections key)))

/-- `maxRows` (app.js 324): `Math.max(1, ...lengths)`. -/
def maxRows (plan : PlanComparison) : Nat :=
  ((perSectionRows plan).map (fun s => s.2.length)).foldl max 1

/-- The row built by one iteration of the loop at app.js 325-336. -/
def dataRow (sections : List (SectionKey × List Entry)) (i : Nat) : List JSString :=
  sections.foldl
    (fun row s =>
      match s.2[i]? with
      | some entry => (row.set (nameCol s.1) entry.name).set (resultCol s.1) entry.result
      | none => row)
    (List.replicate 8 [])

/-- The array `rows` of one plan (app.js 292-336). -/
def planRows (plan : PlanComparison) : List (List JSString) :=
  headerRow :: (List.range (maxRows plan)).map (dataRow (perSectionRows plan))

/-- The loop of app.js 291-341 over the plans, threading `usedNames`. -/
def buildSheets (fuel : Nat) : List PlanComparison → List JSString → Option (List Sheet)
  | [], _ => some []
  | plan :: rest, usedNames =>
    match makeSheetName fuel plan.planName usedNames with
    | none => none
    | some (name, usedNames') =>
      (buildSheets fuel rest usedNames').map
        (fun sheets => { name := name, rows := planRows plan } :: sheets)

/-- `buildExcelWorkbook(results)` (app.js 275-343): the sheets of the
workbook in the order they are appended; `generated` is
`new Date().toISOString()`. -/
def buildExcelWorkbook (fuel : Nat) (generated : JSString) (results : List PlanComparison) :
    Option (List Sheet) :=
  if results.length = 0 then
    some [{ name := js "Summary"
            rows := [[js "Plan Comparator Report"], [js "Generated: " ++ generated], [],
                     [js "No plans to compare."]] }]
  else buildSheets fuel results []

/-! ## Notions used to state the properties -/

/-- The distinct non-empty normalized keys of a raw name list. -/
def distinctKeys (names : List JSString) : List JSString :=
  ((names.map normalizeName).filter (fun k => k ≠ [])).dedup

/-- The sheet name of a plan as the specification words it: the characters
`\ / ? * [ ] :` removed, the rest trimmed and cut to 31 code units, "Plan"
when nothing is left. -/
def strippedSheetName (planName : JSString) : JSString :=
  let s := (trim (planName.filter (fun c => !isIllegalSheetChar c))).take 31
  if s = [] then js "Plan" else s

/-- A plan record given by its name and its four sections. -/
def mkPlan (planName : JSString) (customerOnly invoiceOnly unreconciled reconciled : List JSString) :
    Plan :=
  { planName := planName
    sections := fun key =>
      match key with
      | SectionKey.customerOnly => customerOnly
      | SectionKey.invoiceOnly => invoiceOnly
      | SectionKey.unreconciled => unreconciled
      | SectionKey.reconciled => reconciled }

/-- The number a decimal numeral stands for. -/
def decimalValue (s : JSString) : Nat :=
  s.foldl (fun acc c => 10 * acc + (c - 48)) 0

/-- The candidates the loop of `makeSheetName` tries, in order: `cleaned`
first, then the candidate built for `counter = 1, 2, ...`. -/
def candidateAt (cleaned : JSString) : Nat → JSString
  | 0 => cleaned
  | n + 1 => sheetCandidate cleaned (n + 1)

/-- The entry list of a section as pairs (name, label): `inBoth`, then
`onlyLeft`, then `onlyRight`, each with its label. -/
def labelledEntries (sec : SectionComparison) : List (JSString × JSString) :=
  sec.inBoth.map (fun n => (n, js "In Both"))
    ++ sec.onlyLeft.map (fun n => (n, js "Only OneKonnect"))
    ++ sec.onlyRight.map (fun n => (n, js "Only Puzzle"))

/-- A result record with the given name and the same comparison in every
section. -/
def uniformComparison (planName : JSString) (sec : SectionComparison) : PlanComparison :=
  { planName := planName, sections := fun _ => sec }

/-! ## Lemmas on sets, maps and sorting -/

theorem mem_setAdd (set : List JSString) (x k : JSString) :
    k ∈ setAdd set x ↔ k ∈ set ∨ k = x := by
  unfold setAdd
  split
  · constructor
    · intro h; exact Or.inl h
    · rintro (h | h)
      · exact h
      · subst h; assumption
  · simp

theorem nodup_setAdd (set : List JSString) (x : JSString) (h : set.Nodup) :
    (setAdd set x).Nodup := by
  unfold setAdd
  split
  · exact h
  · rename_i hx
    exact List.Nodup.append h (List.nodup_singleton x) (by simpa using hx)

theorem setHas_iff (set : List JSString) (x : JSString) : setHas set x = true ↔ x ∈ set := by
  simp [setHas]

theorem setHas_false_iff (set : List JSString) (x : JSString) :
    setHas set x = false ↔ x ∉ set := by
  simp [setHas]

theorem sortBy_perm {α : Type} (f : α → α → Int) (l : List α) : (sortBy f l).Perm l :=
  List.perm_insertionSort _ l

theorem length_sortBy {α : Type} (f : α → α → Int) (l : List α) :
    (sortBy f l).length = l.length :=
  (sortBy_perm f l).length_eq

theorem mem_sortBy {α : Type} (f : α → α → Int) (l : List α) (x : α) :
    x ∈ sortBy f l ↔ x ∈ l :=
  (sortBy_perm f l).mem_iff

theorem sortBy_eq_nil {α : Type} (f : α → α → Int) (l : List α) :
    sortBy f l = [] ↔ l = [] := by
  rw [← List.length_eq_zero, length_sortBy, List.length_eq_zero]

/-! ## Lemmas on `toSetCaseInsensitive` and `originalMap` -/

theorem normalizeName_nil : normalizeName [] = [] := by
  simp [normalizeName]

theorem toSetFold_mem (names : List JSString) (acc : List JSString) (k : JSString) :
    k ∈ names.foldl
        (fun set n =>
          let norm := normalizeName n
          if norm ≠ [] then setAdd set norm else set) acc
      ↔ k ∈ acc ∨ (k ≠ [] ∧ ∃ n ∈ names, normalizeName n = k) := by
  induction names generalizing acc with
  | nil => simp
  | cons n ns ih =>
    rw [List.foldl_cons, ih]
    by_cases hn : normalizeName n = []
    · simp only [hn, ne_eq, not_true_eq_false, if_false, List.mem_cons, exists_eq_or_imp]
      constructor
      · rintro (h | ⟨h1, h2⟩)
        · exact Or.inl h
        · exact Or.inr ⟨h1, Or.inr h2⟩
      · rintro (h | ⟨h1, h2 | h2⟩)
        · exact Or.inl h
        · exact absurd h2.symm h1
        · exact Or.inr ⟨h1, h2⟩
    · simp only [ne_eq, hn, not_false_eq_true, if_true, mem_setAdd, List.mem_cons,
        exists_eq_or_imp]
      constructor
      · rintro ((h | h) | ⟨h1, h2⟩)
        · exact Or.inl h
        · exact Or.inr ⟨by rw [h]; exact hn, Or.inl h.symm⟩
        · exact Or.inr ⟨h1, Or.inr h2⟩
      · rintro (h | ⟨h1, h2 | h2⟩)
        · exact Or.inl (Or.inl h)
        · exact Or.inl (Or.inr h2.symm)
        · exact Or.inr ⟨h1, h2⟩

theorem toSetFold_nodup (names : List JSString) (acc : List JSString) (h : acc.Nodup) :
    (names.foldl
        (fun set n =>
          let norm := normalizeName n
          if norm ≠ [] then setAdd set norm else set) acc).Nodup := by
  induction names generalizing acc with
  | nil => simpa
  | cons n ns ih =>
    rw [List.foldl_cons]
    apply ih
    by_cases hn : normalizeName n = []
    · simpa [hn] using h
    · simpa [hn] using nodup_setAdd acc _ h

theorem mem_toSet (names : List JSString) (k : JSString) :
    k ∈ toSetCaseInsensitive names ↔ k ≠ [] ∧ ∃ n ∈ names, normalizeName n = k := by
  unfold toSetCaseInsensitive
  rw [toSetFold_mem]
  simp

theorem nodup_toSet (names : List JSString) : (toSetCaseInsensitive names).Nodup :=
  toSetFold_nodup names [] List.nodup_nil

theorem mem_distinctKeys (names : List JSString) (k : JSString) :
    k ∈ distinctKeys names ↔ k ≠ [] ∧ ∃ n ∈ names, normalizeName n = k := by
  unfold distinctKeys
  rw [List.mem_dedup, List.mem_filter, List.mem_map]
  simp only [ne_eq, decide_not, Bool.not_eq_true', decide_eq_false_iff_not]
  tauto

theorem nodup_distinctKeys (names : List JSString) : (distinctKeys names).Nodup :=
  List.nodup_dedup _

theorem toSet_perm_distinctKeys (names : List JSString) :
    (toSetCaseInsensitive names).Perm (distinctKeys names) := by
  rw [List.perm_ext_iff_of_nodup (nodup_toSet names) (nodup_distinctKeys names)]
  intro k
  rw [mem_toSet, mem_distinctKeys]

theorem mem_toSet_iff_distinctKeys (names : List JSString) (k : JSString) :
    k ∈ toSetCaseInsensitive names ↔ k ∈ distinctKeys names :=
  (toSet_perm_distinctKeys names).mem_iff

theorem mapGet_mapSet {β : Type} (m : List (JSString × β)) (key k : JSString) (v : β) :
    mapGet (mapSet m key v) k = if key = k then some v else mapGet m k := by
  induction m with
  | nil => 
    by_cases h : key = k <;> simp [mapSet, mapGet, List.find?, h]
  | cons e m ih =>
    unfold mapSet
    by_cases he : e.1 = key
    · rw [if_pos he]
      by_cases h : key = k
      · simp [mapGet, List.find?, h]
      · have : ¬ e.1 = k := by rw [he]; exact h
        simp [mapGet, List.find?, h, this]
    · rw [if_neg he]
      by_cases h : key = k
      · have : ¬ e.1 = k := by rw [← h]; exact he
        have ih2 := ih
        simp only [mapGet, h, if_true] at ih2
        simp [mapGet, List.find?, h, this, ih2]
      · have ih2 := ih
        simp only [mapGet, h, if_false] at ih2
        by_cases h3 : e.1 = k
        · simp [mapGet, List.find?, h, h3]
        · simp [mapGet, List.find?, h, h3, ih2]

theorem mapHas_eq_isSome {β : Type} (m : List (JSString × β)) (k : JSString) :
    mapHas m k = (mapGet m k).isSome := by
  induction m with
  | nil => simp [mapHas, mapGet]
  | cons e m ih =>
    by_cases h : e.1 = k
    · simp [mapHas, mapGet, List.find?, h]
    · simp only [mapHas, mapGet] at ih
      simp [mapHas, mapGet, List.find?, h, ih]

theorem originalFold_get (names : List JSString) (m : List (JSString × JSString)) (k : JSString)
    (hk : k ≠ []) :
    mapGet (names.foldl
        (fun m n =>
          let key := normalizeName n
          if key ≠ [] ∧ mapHas m key = false then mapSet m key n else m) m) k
      = match mapGet m k with
        | some v => some v
        | none => names.find? (fun n => decide (normalizeName n = k)) := by
  induction names generalizing m with
  | nil => cases h : mapGet m k <;> simp [h]
  | cons n ns ih =>
    rw [List.foldl_cons, ih]
    by_cases hn : normalizeName n ≠ [] ∧ mapHas m (normalizeName n) = false
    · simp only [hn, and_self, if_true, mapGet_mapSet, ne_eq, not_false_eq_true]
      by_cases hnk : normalizeName n = k
      · have hnone : mapGet m k = none := by
          have := hn.2
          rw [mapHas_eq_isSome, hnk] at this
          simpa using this
        simp [hnk, hnone, List.find?]
      · cases hg : mapGet m k <;> simp [hnk, hg, List.find?]
    · simp only [hn, if_false]
      cases hg : mapGet m k with
      | some v => simp
      | none =>
        have hnk : ¬ normalizeName n = k := by
          intro h
          apply hn
          refine ⟨by rw [h]; exact hk, ?_⟩
          rw [mapHas_eq_isSome, h, hg]; rfl
        simp [List.find?, hnk]

theorem originalMap_get (names : List JSString) (k : JSString) (hk : k ≠ []) :
    mapGet (originalMap names) k = names.find? (fun n => decide (normalizeName n = k)) := by
  unfold originalMap
  rw [originalFold_get names [] k hk]
  simp [mapGet]

/-- For a key of the set, `originalMap.get(key) || key` is the first raw
spelling with that key: the fallback to the key is never taken. -/
theorem render_eq_first (names : List JSString) (k : JSString)
    (hk : k ∈ toSetCaseInsensitive names) :
    names.find? (fun n => decide (normalizeName n = k)) = some (render (originalMap names) k) := by
  rw [mem_toSet] at hk
  obtain ⟨hk0, n, hn, hnk⟩ := hk
  unfold render
  rw [originalMap_get names k hk0]
  cases hf : names.find? (fun n => decide (normalizeName n = k)) with
  | none =>
    rw [List.find?_eq_none] at hf
    exact absurd (by simpa using hnk) (hf n hn)
  | some v =>
    have hv := List.find?_some hf
    simp only [decide_eq_true_eq] at hv
    have : v ≠ [] := by
      intro h
      rw [h, normalizeName_nil] at hv
      exact hk0 hv.symm
    simp [this]

theorem normalizeName_render (names : List JSString) (k : JSString)
    (hk : k ∈ toSetCaseInsensitive names) :
    normalizeName (render (originalMap names) k) = k := by
  have h := List.find?_some (render_eq_first names k hk)
  simpa using h


theorem splitLeftFold (leftSet rightSet : List JSString) (m : List (JSString × JSString))
    (acc : List JSString × List JSString) :
    leftSet.foldl
        (fun acc key =>
          if setHas rightSet key then (acc.1 ++ [render m key], acc.2)
          else (acc.1, acc.2 ++ [render m key])) acc
      = (acc.1 ++ (leftSet.filter (fun k => setHas rightSet k)).map (render m),
         acc.2 ++ (leftSet.filter (fun k => !setHas rightSet k)).map (render m)) := by
  induction leftSet generalizing acc with
  | nil => simp
  | cons k ks ih =>
    rw [List.foldl_cons, ih]
    by_cases h : setHas rightSet k = true
    · simp [h]
    · simp [h]

theorem splitLeft_eq (leftSet rightSet : List JSString) (m : List (JSString × JSString)) :
    splitLeft leftSet rightSet m
      = ((leftSet.filter (fun k => setHas rightSet k)).map (render m),
         (leftSet.filter (fun k => !setHas rightSet k)).map (render m)) := by
  unfold splitLeft
  rw [splitLeftFold]
  simp

theorem splitRightFold (leftSet rightSet : List JSString) (m : List (JSString × JSString))
    (acc : List JSString) :
    rightSet.foldl
        (fun acc key =>
          if setHas leftSet key = false then acc ++ [render m key] else acc) acc
      = acc ++ (rightSet.filter (fun k => !setHas leftSet k)).map (render m) := by
  induction rightSet generalizing acc with
  | nil => simp
  | cons k ks ih =>
    rw [List.foldl_cons, ih]
    by_cases h : setHas leftSet k = true
    · simp [h]
    · simp [h]

theorem splitRight_eq (leftSet rightSet : List JSString) (m : List (JSString × JSString)) :
    splitRight leftSet rightSet m
      = (rightSet.filter (fun k => !setHas leftSet k)).map (render m) := by
  unfold splitRight
  rw [splitRightFold]
  simp

/-- Rendering the keys of a sub-list of the set and normalizing again gives the
keys back. -/
theorem map_normalize_render (names : List JSString) (ks : List JSString)
    (h : ∀ k ∈ ks, k ∈ toSetCaseInsensitive names) :
    (ks.map (render (originalMap names))).map normalizeName = ks := by
  induction ks with
  | nil => rfl
  | cons k ks ih =>
    simp only [List.map_cons]
    rw [normalizeName_render names k (h k (List.mem_cons_self k ks)),
      ih (fun k' hk' => h k' (List.mem_cons_of_mem k hk'))]

theorem inBoth_keys (lc : JSString → JSString → Int) (left right : List JSString) :
    ((compareNameSets lc left right).inBoth.map normalizeName).Perm
      ((toSetCaseInsensitive left).filter
        (fun k => setHas (toSetCaseInsensitive right) k)) := by
  simp only [compareNameSets, splitLeft_eq]
  refine ((sortBy_perm lc _).map normalizeName).trans ?_
  rw [map_normalize_render left _ (fun k hk => (List.mem_filter.mp hk).1)]

theorem onlyLeft_keys (lc : JSString → JSString → Int) (left right : List JSString) :
    ((compareNameSets lc left right).onlyLeft.map normalizeName).Perm
      ((toSetCaseInsensitive left).filter
        (fun k => !setHas (toSetCaseInsensitive right) k)) := by
  simp only [compareNameSets, splitLeft_eq]
  refine ((sortBy_perm lc _).map normalizeName).trans ?_
  rw [map_normalize_render left _ (fun k hk => (List.mem_filter.mp hk).1)]

theorem onlyRight_keys (lc : JSString → JSString → Int) (left right : List JSString) :
    ((compareNameSets lc left right).onlyRight.map normalizeName).Perm
      ((toSetCaseInsensitive right).filter
        (fun k => !setHas (toSetCaseInsensitive left) k)) := by
  simp only [compareNameSets, splitRight_eq]
  refine ((sortBy_perm lc _).map normalizeName).trans ?_
  rw [map_normalize_render right _ (fun k hk => (List.mem_filter.mp hk).1)]

theorem mem_inBoth_keys (lc : JSString → JSString → Int) (left right : List JSString)
    (k : JSString) :
    k ∈ (compareNameSets lc left right).inBoth.map normalizeName
      ↔ k ∈ distinctKeys left ∧ k ∈ distinctKeys right := by
  rw [(inBoth_keys lc left right).mem_iff, List.mem_filter, setHas_iff,
    mem_toSet_iff_distinctKeys, mem_toSet_iff_distinctKeys]

theorem mem_onlyLeft_keys (lc : JSString → JSString → Int) (left right : List JSString)
    (k : JSString) :
    k ∈ (compareNameSets lc left right).onlyLeft.map normalizeName
      ↔ k ∈ distinctKeys left ∧ k ∉ distinctKeys right := by
  rw [(onlyLeft_keys lc left right).mem_iff, List.mem_filter, Bool.not_eq_true',
    setHas_false_iff, mem_toSet_iff_distinctKeys, mem_toSet_iff_distinctKeys]

theorem mem_onlyRight_keys (lc : JSString → JSString → Int) (left right : List JSString)
    (k : JSString) :
    k ∈ (compareNameSets lc left right).onlyRight.map normalizeName
      ↔ k ∈ distinctKeys right ∧ k ∉ distinctKeys left := by
  rw [(onlyRight_keys lc left right).mem_iff, List.mem_filter, Bool.not_eq_true',
    setHas_false_iff, mem_toSet_iff_distinctKeys, mem_toSet_iff_distinctKeys]

theorem length_inBoth (lc : JSString → JSString → Int) (left right : List JSString) :
    (compareNameSets lc left right).inBoth.length
      = ((toSetCaseInsensitive left).filter
          (fun k => setHas (toSetCaseInsensitive right) k)).length := by
  rw [← (inBoth_keys lc left right).length_eq, List.length_map]

theorem length_onlyLeft (lc : JSString → JSString → Int) (left right : List JSString) :
    (compareNameSets lc left right).onlyLeft.length
      = ((toSetCaseInsensitive left).filter
          (fun k => !setHas (toSetCaseInsensitive right) k)).length := by
  rw [← (onlyLeft_keys lc left right).length_eq, List.length_map]

theorem length_onlyRight (lc : JSString → JSString → Int) (left right : List JSString) :
    (compareNameSets lc left right).onlyRight.length
      = ((toSetCaseInsensitive right).filter
          (fun k => !setHas (toSetCaseInsensitive left) k)).length := by
  rw [← (onlyRight_keys lc left right).length_eq, List.length_map]

/-- The common keys counted from the left and from the right. -/
theorem common_count (A B : List JSString) (hA : A.Nodup) (hB : B.Nodup) :
    (A.filter (fun k => setHas B k)).length = (B.filter (fun k => setHas A k)).length := by
  apply List.Perm.length_eq
  rw [List.perm_ext_iff_of_nodup (hA.filter _) (hB.filter _)]
  intro k
  simp only [List.mem_filter, setHas_iff]
  tauto

theorem left_count (lc : JSString → JSString → Int) (left right : List JSString) :
    (compareNameSets lc left right).inBoth.length + (compareNameSets lc left right).onlyLeft.length
      = (distinctKeys left).length := by
  rw [length_inBoth, length_onlyLeft, ← (toSet_perm_distinctKeys left).length_eq,
    (toSetCaseInsensitive left).length_eq_length_filter_add
      (fun k => setHas (toSetCaseInsensitive right) k)]

theorem right_count (lc : JSString → JSString → Int) (left right : List JSString) :
    (compareNameSets lc left right).inBoth.length + (compareNameSets lc left right).onlyRight.length
      = (distinctKeys right).length := by
  rw [length_inBoth, length_onlyRight, ← (toSet_perm_distinctKeys right).length_eq,
    common_count _ _ (nodup_toSet left) (nodup_toSet right),
    (toSetCaseInsensitive right).length_eq_length_filter_add
      (fun k => setHas (toSetCaseInsensitive left) k)]

theorem all_keys_nodup (lc : JSString → JSString → Int) (left right : List JSString) :
    (((compareNameSets lc left right).inBoth ++ (compareNameSets lc left right).onlyLeft
        ++ (compareNameSets lc left right).onlyRight).map normalizeName).Nodup := by
  rw [List.map_append, List.map_append]
  have h1 := (inBoth_keys lc left right).nodup_iff.mpr ((nodup_toSet left).filter _)
  have h2 := (onlyLeft_keys lc left right).nodup_iff.mpr ((nodup_toSet left).filter _)
  have h3 := (onlyRight_keys lc left right).nodup_iff.mpr ((nodup_toSet right).filter _)
  rw [List.nodup_append]
  refine ⟨?_, h3, ?_⟩
  · rw [List.nodup_append]
    refine ⟨h1, h2, ?_⟩
    intro k hk1 hk2
    rw [mem_inBoth_keys] at hk1
    rw [mem_onlyLeft_keys] at hk2
    exact hk2.2 hk1.2
  · intro k hk1 hk2
    rw [mem_onlyRight_keys] at hk2
    rw [List.mem_append, mem_inBoth_keys, mem_onlyLeft_keys] at hk1
    rcases hk1 with h | h
    · exact hk2.2 h.1
    · exact hk2.2 h.1


theorem exactSame_eq (lc : JSString → JSString → Int) (left right : List JSString) :
    (compareNameSets lc left right).exactSame
      = (decide ((toSetCaseInsensitive left).length = (toSetCaseInsensitive right).length)
          && decide ((compareNameSets lc left right).inBoth.length
              = (toSetCaseInsensitive left).length)) := rfl

theorem exactSame_iff (lc : JSString → JSString → Int) (left right : List JSString) :
    (compareNameSets lc left right).exactSame = true
      ↔ ∀ k, k ∈ distinctKeys left ↔ k ∈ distinctKeys right := by
  rw [exactSame_eq, Bool.and_eq_true, decide_eq_true_eq, decide_eq_true_eq, length_inBoth]
  constructor
  · rintro ⟨hlen, hall⟩
    have hfil : (toSetCaseInsensitive left).filter
        (fun k => setHas (toSetCaseInsensitive right) k) = toSetCaseInsensitive left :=
      List.Sublist.eq_of_length (List.filter_sublist _) hall
    have hsub : toSetCaseInsensitive left ⊆ toSetCaseInsensitive right := by
      intro k hk
      have := (List.filter_eq_self.mp hfil) k hk
      exact (setHas_iff _ _).mp this
    have hperm : (toSetCaseInsensitive left).Perm (toSetCaseInsensitive right) :=
      List.Subperm.perm_of_length_le (List.subperm_of_subset (nodup_toSet left) hsub)
        (le_of_eq hlen.symm)
    intro k
    rw [← mem_toSet_iff_distinctKeys, ← mem_toSet_iff_distinctKeys]
    exact hperm.mem_iff
  · intro h
    have hperm : (toSetCaseInsensitive left).Perm (toSetCaseInsensitive right) := by
      rw [List.perm_ext_iff_of_nodup (nodup_toSet left) (nodup_toSet right)]
      intro k
      rw [mem_toSet_iff_distinctKeys, mem_toSet_iff_distinctKeys]
      exact h k
    refine ⟨hperm.length_eq, ?_⟩
    have hfil : (toSetCaseInsensitive left).filter
        (fun k => setHas (toSetCaseInsensitive right) k) = toSetCaseInsensitive left := by
      rw [List.filter_eq_self]
      intro k hk
      exact (setHas_iff _ _).mpr (hperm.mem_iff.mp hk)
    rw [hfil]

theorem countP_key_eq_one {α : Type} (f : α → JSString) (l : List α) (k : JSString)
    (hnd : (l.map f).Nodup) (hk : k ∈ l.map f) :
    l.countP (fun e => decide (f e = k)) = 1 := by
  induction l with
  | nil => simp at hk
  | cons e t ih =>
    rw [List.map_cons, List.nodup_cons] at hnd
    by_cases he : f e = k
    · have h0 : t.countP (fun e => decide (f e = k)) = 0 := by
        rw [List.countP_eq_zero]
        intro a ha hfa
        apply hnd.1
        rw [he]
        simp only [decide_eq_true_eq] at hfa
        rw [← hfa]
        exact List.mem_map_of_mem f ha
      rw [List.countP_cons_of_pos _ _ (by simpa using he), h0]
    · rw [List.countP_cons_of_neg _ _ (by simpa using he)]
      apply ih hnd.2
      rw [List.map_cons, List.mem_cons] at hk
      rcases hk with h | h
      · exact absurd h.symm he
      · exact h

/-! ## The claims on `compareNameSets` -/

/-- C1. For every comparator and every pair of raw name lists, the three
lists returned by `compareNameSets` partition the distinct non-empty
normalized keys of the two inputs: no entry has an empty key, no key is the
key of two entries, every key of either side is the key of exactly one entry,
a key is in `inBoth` iff it occurs on both sides, in `onlyLeft` iff only on
the left, in `onlyRight` iff only on the right, and the lengths add up to the
number of distinct keys of each side.  The worked example
`compare(["Alice","Bob"], ["bob","Alice","Carol"])` is evaluated as well. -/
theorem compareNameSets_partition :
    (∀ (lc : JSString → JSString → Int) (left right : List JSString),
      (∀ e ∈ (compareNameSets lc left right).inBoth ++ (compareNameSets lc left right).onlyLeft
            ++ (compareNameSets lc left right).onlyRight, normalizeName e ≠ []) ∧
      (((compareNameSets lc left right).inBoth ++ (compareNameSets lc left right).onlyLeft
            ++ (compareNameSets lc left right).onlyRight).map normalizeName).Nodup ∧
      (∀ k, (k ∈ distinctKeys left ∨ k ∈ distinctKeys right) ↔
        ((compareNameSets lc left right).inBoth ++ (compareNameSets lc left right).onlyLeft
            ++ (compareNameSets lc left right).onlyRight).countP
          (fun e => decide (normalizeName e = k)) = 1) ∧
      (∀ k, k ∈ (compareNameSets lc left right).inBoth.map normalizeName
          ↔ k ∈ distinctKeys left ∧ k ∈ distinctKeys right) ∧
      (∀ k, k ∈ (compareNameSets lc left right).onlyLeft.map normalizeName
          ↔ k ∈ distinctKeys left ∧ k ∉ distinctKeys right) ∧
      (∀ k, k ∈ (compareNameSets lc left right).onlyRight.map normalizeName
          ↔ k ∈ distinctKeys right ∧ k ∉ distinctKeys left) ∧
      (compareNameSets lc left right).inBoth.length + (compareNameSets lc left right).onlyLeft.length
        = (distinctKeys left).length ∧
      (compareNameSets lc left right).inBoth.length + (compareNameSets lc left right).onlyRight.length
        = (distinctKeys right).length)
    ∧ compareNameSets sampleCompare [js "Alice", js "Bob"] [js "bob", js "Alice", js "Carol"]
        = { inBoth := [js "Alice", js "Bob"], onlyLeft := [], onlyRight := [js "Carol"],
            exactSame := false } := by
  refine ⟨?_, by decide⟩
  intro lc left right
  have hmem : ∀ k, k ∈ ((compareNameSets lc left right).inBoth
      ++ (compareNameSets lc left right).onlyLeft
      ++ (compareNameSets lc left right).onlyRight).map normalizeName
      ↔ (k ∈ distinctKeys left ∨ k ∈ distinctKeys right) := by
    intro k
    rw [List.map_append, List.map_append, List.mem_append, List.mem_append, mem_inBoth_keys,
      mem_onlyLeft_keys, mem_onlyRight_keys]
    tauto
  have hnd := all_keys_nodup lc left right
  refine ⟨?_, hnd, ?_, mem_inBoth_keys lc left right, mem_onlyLeft_keys lc left right,
    mem_onlyRight_keys lc left right, left_count lc left right, right_count lc left right⟩
  · intro e he
    have : normalizeName e ∈ ((compareNameSets lc left right).inBoth
        ++ (compareNameSets lc left right).onlyLeft
        ++ (compareNameSets lc left right).onlyRight).map normalizeName :=
      List.mem_map_of_mem normalizeName he
    rw [hmem] at this
    rcases this with h | h
    · exact ((mem_distinctKeys _ _).mp h).1
    · exact ((mem_distinctKeys _ _).mp h).1
  · intro k
    rw [← hmem]
    constructor
    · intro h
      exact countP_key_eq_one normalizeName _ k hnd h
    · intro h
      have hpos : 0 < ((compareNameSets lc left right).inBoth
          ++ (compareNameSets lc left right).onlyLeft
          ++ (compareNameSets lc left right).onlyRight).countP
          (fun e => decide (normalizeName e = k)) := by omega
      obtain ⟨e, he, hek⟩ := List.countP_pos_iff.mp hpos
      simp only [decide_eq_true_eq] at hek
      rw [← hek]
      exact List.mem_map_of_mem normalizeName he

/-- C2. For every comparator and every pair of raw name lists, `exactSame` is
true exactly when the two sides have the same set of non-empty normalized
keys.  The worked example `compare(["Ann","Bea"], ["bea","ANN"])` has
`exactSame = true`, two `inBoth` entries and both only-lists empty. -/
theorem exactSame_iff_same_keys :
    (∀ (lc : JSString → JSString → Int) (left right : List JSString),
      (compareNameSets lc left right).exactSame = true
        ↔ ∀ k, k ∈ distinctKeys left ↔ k ∈ distinctKeys right)
    ∧ compareNameSets sampleCompare [js "Ann", js "Bea"] [js "bea", js "ANN"]
        = { inBoth := [js "Ann", js "Bea"], onlyLeft := [], onlyRight := [], exactSame := true } :=
  ⟨exactSame_iff, by decide⟩

/-! ## The status label of the text report -/

theorem compareNameSets_nonempty_of_not_exact (lc : JSString → JSString → Int)
    (left right : List JSString)
    (hex : (compareNameSets lc left right).exactSame = false)
    (hib : (compareNameSets lc left right).inBoth = []) :
    (compareNameSets lc left right).onlyLeft ≠ []
      ∨ (compareNameSets lc left right).onlyRight ≠ [] := by
  by_contra hcon
  rw [not_or, not_not, not_not] at hcon
  have hl := left_count lc left right
  have hr := right_count lc left right
  rw [hib, hcon.1] at hl
  rw [hib, hcon.2] at hr
  have hl2 := (toSet_perm_distinctKeys left).length_eq
  have hr2 := (toSet_perm_distinctKeys right).length_eq
  have hex2 := exactSame_eq lc left right
  rw [hex, hib] at hex2
  simp only [List.length_nil, Nat.add_zero] at hl hr
  rw [hl2, hr2, ← hl, ← hr] at hex2
  simp at hex2

theorem sectionState_compareNameSets (lc : JSString → JSString → Int)
    (left right : List JSString) :
    sectionState (compareNameSets lc left right) ≠ js "Empty on both" := by
  unfold sectionState
  split
  · decide
  · rename_i hex
    split
    · decide
    · rename_i hib
      split
      · decide
      · rename_i hno
        exfalso
        have hib2 : (compareNameSets lc left right).inBoth = [] := by
          rw [← List.length_eq_zero]
          simpa using hib
        rcases compareNameSets_nonempty_of_not_exact lc left right (by simpa using hex) hib2
          with h | h
        · apply hno
          left
          rw [ne_eq, List.length_eq_zero]
          exact h
        · apply hno
          right
          rw [ne_eq, List.length_eq_zero]
          exact h

theorem compareSides_sections (lc : JSString → JSString → Int) (L R : List Plan)
    (pc : PlanComparison) (h : pc ∈ compareSides lc L R) (key : SectionKey) :
    ∃ left right, pc.sections key = compareNameSets lc left right := by
  unfold compareSides at h
  rw [List.mem_map] at h
  obtain ⟨name, _, rfl⟩ := h
  exact ⟨_, _, rfl⟩

theorem mem_flatMap_of_mem {α β : Type} (f : α → List β) (l : List α) (a : α) (b : β)
    (ha : a ∈ l) (hb : b ∈ f a) : b ∈ l.flatMap f := by
  induction l with
  | nil => simp at ha
  | cons x t ih =>
    rw [List.flatMap_cons, List.mem_append]
    rw [List.mem_cons] at ha
    rcases ha with h | h
    · left; rw [← h]; exact hb
    · right; exact ih h

theorem statusLine_mem_reportLines (generated : JSString) (results : List PlanComparison)
    (pc : PlanComparison) (hpc : pc ∈ results) (key : SectionKey) :
    js "- " ++ SECTION_TITLES key ++ js ": " ++ sectionState (pc.sections key)
      ∈ reportLines generated results := by
  have hne : results.length ≠ 0 := by
    intro h
    rw [List.length_eq_zero] at h
    rw [h] at hpc
    simp at hpc
  unfold reportLines
  simp only [hne, if_false]
  rw [List.mem_append]
  right
  apply mem_flatMap_of_mem planLines results pc _ hpc
  unfold planLines
  rw [List.mem_append, List.mem_append]
  left; right
  have hkey : key ∈ SECTION_KEYS := by
    cases key <;> simp [SECTION_KEYS]
  apply mem_flatMap_of_mem (sectionLines pc) SECTION_KEYS key _ hkey
  simp [sectionLines]

/-- C10. The status label that `buildTextReport` computes for a section of
`compareSides(leftPlans, rightPlans)` is never "Empty on both": the label of
any `compareNameSets` result differs from it, every section of every result
of `compareSides` is such a result, and the status line of every section is
one of the report's lines; a section without valid names on either side has
`exactSame = true` and the label "Exact match", and a section with
`exactSame = false` and empty `inBoth` has a non-empty only-list and the label
"No overlap". -/
theorem status_never_empty_on_both :
    (∀ (lc : JSString → JSString → Int) (leftPlans rightPlans : List Plan)
        (pc : PlanComparison) (key : SectionKey), pc ∈ compareSides lc leftPlans rightPlans →
        sectionState (pc.sections key) ≠ js "Empty on both") ∧
    (∀ (generated : JSString) (results : List PlanComparison) (pc : PlanComparison)
        (key : SectionKey), pc ∈ results →
        js "- " ++ SECTION_TITLES key ++ js ": " ++ sectionState (pc.sections key)
          ∈ reportLines generated results) ∧
    (∀ (lc : JSString → JSString → Int) (left right : List JSString),
        distinctKeys left = [] → distinctKeys right = [] →
        (compareNameSets lc left right).exactSame = true ∧
        sectionState (compareNameSets lc left right) = js "Exact match") ∧
    (∀ (lc : JSString → JSString → Int) (left right : List JSString),
        (compareNameSets lc left right).exactSame = false →
        (compareNameSets lc left right).inBoth = [] →
        ((compareNameSets lc left right).onlyLeft ≠ []
          ∨ (compareNameSets lc left right).onlyRight ≠ []) ∧
        sectionState (compareNameSets lc left right) = js "No overlap") := by
  refine ⟨?_, ?_, ?_, ?_⟩
  · intro lc L R pc key hpc
    obtain ⟨left, right, h⟩ := compareSides_sections lc L R pc hpc key
    rw [h]
    exact sectionState_compareNameSets lc left right
  · intro generated results pc key hpc
    exact statusLine_mem_reportLines generated results pc hpc key
  · intro lc left right hl hr
    have hex : (compareNameSets lc left right).exactSame = true := by
      rw [exactSame_iff]
      intro k
      rw [hl, hr]
    refine ⟨hex, ?_⟩
    unfold sectionState
    rw [if_pos hex]
  · intro lc left right hex hib
    have hne := compareNameSets_nonempty_of_not_exact lc left right hex hib
    refine ⟨hne, ?_⟩
    unfold sectionState
    rw [if_neg (by simp [hex]), if_neg (by simp [hib]), if_pos]
    rcases hne with h | h
    · left
      rw [ne_eq, List.length_eq_zero]
      exact h
    · right
      rw [ne_eq, List.length_eq_zero]
      exact h

/-- C10 at a concrete plan list: the only name of the customer-only section
has an empty key, and the section is labelled "Exact match". -/
theorem status_never_empty_on_both_witness :
    ∃ pc, (compareSides sampleCompare [mkPlan (js "Dental") [js "?"] [] [] []] []).head? = some pc ∧
      sectionState (pc.sections SectionKey.customerOnly) ≠ js "Empty on both" ∧
      sectionState (pc.sections SectionKey.customerOnly) = js "Exact match" :=
  ⟨_, rfl,
    status_never_empty_on_both.1 sampleCompare [mkPlan (js "Dental") [js "?"] [] [] []] [] _
      SectionKey.customerOnly (List.mem_of_mem_head? rfl),
    by decide⟩

/-! ## The claims on `normalizeName` -/

/-- C4. `normalizeName` evaluated where idempotence fails: the worked example
`normalize("  O'Brien, Jane ")` gives `"obrien jane"`, but `"- John"` is
trimmed before the hyphen is deleted, so its key `" john"` keeps a leading
space, and normalizing that key again gives `"john"`. -/
theorem normalizeName_twice_differs :
    normalizeName (js "  O'Brien, Jane ") = js "obrien jane" ∧
    normalizeName (js "- John") = js " john" ∧
    normalizeName (normalizeName (js "- John")) = js "john" ∧
    normalizeName (normalizeName (js "- John")) ≠ normalizeName (js "- John") := by
  decide

/-- C3. `normalizeName` and `compareNameSets` evaluated where a punctuation
character changes the key: with `u = ""`, `c = "-"` and `v = " John"` the key
of `u ++ c ++ v` is `" john"` while the key of `u ++ v` is `"john"`, and the
two raw names `"- John"` and `"John"` land in `onlyLeft` and `onlyRight`. -/
theorem normalizeName_edge_punctuation :
    isAsciiLetter 45 = false ∧ isAsciiDigit 45 = false ∧ isWhiteSpace 45 = false ∧
    normalizeName ([] ++ [45] ++ js " John") = js " john" ∧
    normalizeName ([] ++ js " John") = js "john" ∧
    compareNameSets sampleCompare [js "- John"] [js "John"]
      = { inBoth := [], onlyLeft := [js "- John"], onlyRight := [js "John"],
          exactSame := false } := by
  decide

/-! ## The claim on a first sheet name -/

theorem cleanedSheetName_eq (p : JSString) :
    cleanedSheetName p
      = if (trim (p.map (fun c => if isIllegalSheetChar c then 32 else c))).take 31 = []
        then js "Plan"
        else (trim (p.map (fun c => if isIllegalSheetChar c then 32 else c))).take 31 := by
  unfold cleanedSheetName replaceIllegal
  by_cases hp : p = []
  · subst hp
    decide
  · simp only [hp, if_false]

/-- C9 (as the code has it). With an empty set of used names and at least one
unit of fuel, `makeSheetName` returns the plan name with every occurrence of
`\ / ? * [ ] :` replaced by a space, then trimmed, then cut to its first 31
code units, or "Plan" when that is empty; the set afterwards holds exactly
that name. -/
theorem makeSheetName_empty_set (fuel : Nat) (p : JSString) (hfuel : 0 < fuel) :
    makeSheetName fuel p []
      = some
          (if (trim (p.map (fun c => if isIllegalSheetChar c then 32 else c))).take 31 = []
            then js "Plan"
            else (trim (p.map (fun c => if isIllegalSheetChar c then 32 else c))).take 31,
           [if (trim (p.map (fun c => if isIllegalSheetChar c then 32 else c))).take 31 = []
            then js "Plan"
            else (trim (p.map (fun c => if isIllegalSheetChar c then 32 else c))).take 31]) := by
  obtain ⟨f, rfl⟩ : ∃ f, fuel = f + 1 := ⟨fuel - 1, by omega⟩
  rw [← cleanedSheetName_eq]
  simp [makeSheetName, sheetLoop, setHas, setAdd]

/-- C9 at a concrete plan name: `"Q1: Budget/Plan"` becomes `"Q1  Budget Plan"`. -/
theorem makeSheetName_empty_set_witness :
    0 < 1 ∧ makeSheetName 1 (js "Q1: Budget/Plan") []
      = some (js "Q1  Budget Plan", [js "Q1  Budget Plan"]) :=
  ⟨by decide, (makeSheetName_empty_set 1 (js "Q1: Budget/Plan") (by decide)).trans (by decide)⟩

/-- C9 as worded fails: for `"a/b"` the code returns `"a b"`, the slash
replaced by a space, where removing the slash would give `"ab"`. -/
theorem makeSheetName_replaces_not_strips :
    makeSheetName 1 (js "a/b") [] = some (js "a b", [js "a b"]) ∧
    strippedSheetName (js "a/b") = js "ab" ∧
    (makeSheetName 1 (js "a/b") []).map Prod.fst ≠ some (strippedSheetName (js "a/b")) := by
  decide

/-! ## Lemmas on `compareSides` -/

theorem newSetFold_mem (items acc : List JSString) (k : JSString) :
    k ∈ items.foldl setAdd acc ↔ k ∈ acc ∨ k ∈ items := by
  induction items generalizing acc with
  | nil => simp
  | cons x xs ih =>
    rw [List.foldl_cons, ih, mem_setAdd, List.mem_cons]
    tauto

theorem newSetFold_nodup (items acc : List JSString) (h : acc.Nodup) :
    (items.foldl setAdd acc).Nodup := by
  induction items generalizing acc with
  | nil => simpa
  | cons x xs ih =>
    rw [List.foldl_cons]
    exact ih _ (nodup_setAdd acc x h)

theorem mem_newSet (items : List JSString) (k : JSString) : k ∈ newSet items ↔ k ∈ items := by
  unfold newSet
  rw [newSetFold_mem]
  simp

theorem nodup_newSet (items : List JSString) : (newSet items).Nodup :=
  newSetFold_nodup items [] List.nodup_nil

theorem compareSides_planNames_eq (lc : JSString → JSString → Int) (L R : List Plan) :
    (compareSides lc L R).map PlanComparison.planName
      = sortBy lc (newSet (L.map (fun p => trim p.planName) ++ R.map (fun p => trim p.planName))) := by
  unfold compareSides
  simp only [List.map_map]
  exact List.map_id _

theorem byNameFold_get (L : List Plan) (m : List (JSString × Plan)) (name : JSString) :
    mapGet (L.foldl (fun m p => mapSet m (trim p.planName) p) m) name
      = match L.reverse.find? (fun q => decide (trim q.planName = name)) with
        | some p => some p
        | none => mapGet m name := by
  induction L generalizing m with
  | nil => simp
  | cons p t ih =>
    rw [List.foldl_cons, ih, List.reverse_cons, List.find?_append]
    cases hf : t.reverse.find? (fun q => decide (trim q.planName = name)) with
    | some q => simp
    | none =>
      rw [mapGet_mapSet]
      by_cases hp : trim p.planName = name
      · simp [hp, List.find?]
      · simp [hp, List.find?]

theorem byName_get (L : List Plan) (name : JSString) :
    mapGet (byName L) name = L.reverse.find? (fun q => decide (trim q.planName = name)) := by
  unfold byName
  rw [byNameFold_get]
  cases L.reverse.find? (fun q => decide (trim q.planName = name)) <;> simp [mapGet]

theorem toSet_nil : toSetCaseInsensitive [] = [] := rfl

theorem compareNameSets_right_nil (lc : JSString → JSString → Int) (left : List JSString) :
    (compareNameSets lc left []).inBoth = [] ∧ (compareNameSets lc left []).onlyRight = [] := by
  constructor
  · simp [compareNameSets, splitLeft_eq, toSet_nil, setHas, sortBy]
  · simp [compareNameSets, splitRight_eq, toSet_nil, sortBy]

theorem onlyLeft_first_raw (lc : JSString → JSString → Int) (left right : List JSString)
    (e : JSString) (he : e ∈ (compareNameSets lc left right).onlyLeft) :
    left.find? (fun n => decide (normalizeName n = normalizeName e)) = some e := by
  simp only [compareNameSets, splitLeft_eq, mem_sortBy, List.mem_map, List.mem_filter] at he
  obtain ⟨k, ⟨hk, _⟩, rfl⟩ := he
  rw [normalizeName_render left k hk]
  exact render_eq_first left k hk

theorem onlyLeft_keys_right_nil (lc : JSString → JSString → Int) (left : List JSString) :
    ((compareNameSets lc left []).onlyLeft.map normalizeName).Perm (distinctKeys left) := by
  refine (onlyLeft_keys lc left []).trans ?_
  rw [toSet_nil]
  have : (toSetCaseInsensitive left).filter (fun k => !setHas [] k) = toSetCaseInsensitive left := by
    rw [List.filter_eq_self]
    intro k _
    simp [setHas]
  rw [this]
  exact toSet_perm_distinctKeys left

theorem sampleCompare_total (a b : JSString) : sampleCompare a b ≤ 0 ∨ sampleCompare b a ≤ 0 := by
  induction a generalizing b with
  | nil => cases b <;> simp [sampleCompare]
  | cons x s ih =>
    cases b with
    | nil => simp [sampleCompare]
    | cons y t =>
      simp only [sampleCompare]
      rcases Nat.lt_trichotomy (lowerUnit x) (lowerUnit y) with h | h | h
      · simp [h]
      · simp [h, ih t]
      · have : ¬ lowerUnit x < lowerUnit y := by omega
        simp [h, this]

theorem sampleCompare_trans (a b c : JSString) (hab : sampleCompare a b ≤ 0)
    (hbc : sampleCompare b c ≤ 0) : sampleCompare a c ≤ 0 := by
  induction a generalizing b c with
  | nil => cases c <;> simp [sampleCompare]
  | cons x s ih =>
    cases b with
    | nil => simp [sampleCompare] at hab
    | cons y t =>
      cases c with
      | nil => simp [sampleCompare] at hbc
      | cons z u =>
        simp only [sampleCompare] at hab hbc ⊢
        by_cases hxy : lowerUnit x < lowerUnit y
        · have hxz : lowerUnit x < lowerUnit z := by
            by_cases hyz : lowerUnit y < lowerUnit z
            · omega
            · by_cases hzy : lowerUnit z < lowerUnit y
              · simp [hyz, hzy] at hbc
              · omega
          simp [hxz]
        · by_cases hyx : lowerUnit y < lowerUnit x
          · simp [hxy, hyx] at hab
          · simp only [hxy, hyx, if_false] at hab
            by_cases hyz : lowerUnit y < lowerUnit z
            · have hxz : lowerUnit x < lowerUnit z := by omega
              simp [hxz]
            · by_cases hzy : lowerUnit z < lowerUnit y
              · simp [hyz, hzy] at hbc
              · simp only [hyz, hzy, if_false] at hbc
                have h1 : ¬ lowerUnit x < lowerUnit z := by omega
                have h2 : ¬ lowerUnit z < lowerUnit x := by omega
                simp only [h1, h2, if_false]
                exact ih t u hab hbc

theorem mem_compareSides (lc : JSString → JSString → Int) (L R : List Plan)
    (pc : PlanComparison) (h : pc ∈ compareSides lc L R) (key : SectionKey) :
    pc.sections key
      = compareNameSets lc
          (match L.reverse.find? (fun q => decide (trim q.planName = pc.planName)) with
            | some p => p.sections key
            | none => [])
          (match R.reverse.find? (fun q => decide (trim q.planName = pc.planName)) with
            | some p => p.sections key
            | none => []) := by
  unfold compareSides at h
  rw [List.mem_map] at h
  obtain ⟨name, _, rfl⟩ := h
  simp only [byName_get]

theorem find?_reverse_none (R : List Plan) (name : JSString)
    (h : ∀ q ∈ R, trim q.planName ≠ name) :
    R.reverse.find? (fun q => decide (trim q.planName = name)) = none := by
  rw [List.find?_eq_none]
  intro q hq
  simpa using h q (List.mem_reverse.mp hq)

theorem find?_reverse_some (L : List Plan) (name : JSString)
    (h : ∃ p ∈ L, trim p.planName = name) :
    ∃ p, L.reverse.find? (fun q => decide (trim q.planName = name)) = some p := by
  obtain ⟨p, hp, hpn⟩ := h
  cases hf : L.reverse.find? (fun q => decide (trim q.planName = name)) with
  | some q => exact ⟨q, rfl⟩
  | none =>
    rw [List.find?_eq_none] at hf
    exact absurd (by simpa using hpn) (hf p (List.mem_reverse.mpr hp))

/-! ## The claims on `compareSides` -/

/-- C5. For every comparator and all plan lists, the plan names of
`compareSides` are without repetition, a name is among them exactly when it
is the trimmed name of a plan of either side (compared as exact strings), and
whenever the comparator is a total preorder the names are in its sorted
order.  Worked example: "Dental" and "dental" give two results. -/
theorem compareSides_planNames :
    (∀ (lc : JSString → JSString → Int) (leftPlans rightPlans : List Plan),
      ((compareSides lc leftPlans rightPlans).map PlanComparison.planName).Nodup ∧
      (∀ n, n ∈ (compareSides lc leftPlans rightPlans).map PlanComparison.planName
          ↔ (∃ p ∈ leftPlans, trim p.planName = n) ∨ (∃ p ∈ rightPlans, trim p.planName = n)) ∧
      ((∀ a b, lc a b ≤ 0 ∨ lc b a ≤ 0) → (∀ a b c, lc a b ≤ 0 → lc b c ≤ 0 → lc a c ≤ 0) →
        ((compareSides lc leftPlans rightPlans).map PlanComparison.planName).Pairwise
          (fun a b => lc a b ≤ 0)))
    ∧ (compareSides sampleCompare
          [mkPlan (js " Vision ") [] [] [] [], mkPlan (js "Dental") [js "Ann"] [] [] []]
          [mkPlan (js "dental") [js "ann"] [] [] [], mkPlan (js "Vision") [] [] [] []]).map
        PlanComparison.planName
        = [js "Dental", js "dental", js "Vision"] := by
  refine ⟨?_, by decide⟩
  intro lc L R
  rw [compareSides_planNames_eq]
  refine ⟨?_, ?_, ?_⟩
  · exact (sortBy_perm lc _).nodup_iff.mpr (nodup_newSet _)
  · intro n
    rw [mem_sortBy, mem_newSet, List.mem_append, List.mem_map, List.mem_map]
  · intro htot htrans
    haveI : IsTotal JSString (fun a b => lc a b ≤ 0) := ⟨htot⟩
    haveI : IsTrans JSString (fun a b => lc a b ≤ 0) := ⟨htrans⟩
    exact List.sorted_insertionSort (fun a b => lc a b ≤ 0) _

/-- C5 at concrete plan lists and a concrete total preorder. -/
theorem compareSides_planNames_witness :
    ((compareSides sampleCompare
          [mkPlan (js " Vision ") [] [] [] [], mkPlan (js "Dental") [js "Ann"] [] [] []]
          [mkPlan (js "dental") [js "ann"] [] [] [], mkPlan (js "Vision") [] [] [] []]).map
        PlanComparison.planName).Pairwise (fun a b => sampleCompare a b ≤ 0) :=
  (compareSides_planNames.1 sampleCompare _ _).2.2 sampleCompare_total sampleCompare_trans

/-- C6. When a trimmed plan name occurs on the left and not on the right,
`compareSides` returns a result for it, and every result with that name has,
in each of the four sections, `inBoth = []`, `onlyRight = []`, and an
`onlyLeft` whose keys are the distinct non-empty normalized keys of the left
section, one entry each, every entry being the first raw string of that
section with its key.  The left section is that of the plan the left map
holds for the name (the last left plan so named). -/
theorem compareSides_left_only :
    (∀ (lc : JSString → JSString → Int) (leftPlans rightPlans : List Plan) (name : JSString),
      (∃ p ∈ leftPlans, trim p.planName = name) →
      (∀ q ∈ rightPlans, trim q.planName ≠ name) →
      ∃ p, leftPlans.reverse.find? (fun q => decide (trim q.planName = name)) = some p ∧
        (∃ pc ∈ compareSides lc leftPlans rightPlans, pc.planName = name) ∧
        ∀ pc ∈ compareSides lc leftPlans rightPlans, pc.planName = name → ∀ key : SectionKey,
          (pc.sections key).inBoth = [] ∧
          (pc.sections key).onlyRight = [] ∧
          ((pc.sections key).onlyLeft.map normalizeName).Perm (distinctKeys (p.sections key)) ∧
          ∀ e ∈ (pc.sections key).onlyLeft,
            (p.sections key).find? (fun n => decide (normalizeName n = normalizeName e)) = some e)
    ∧ ((compareSides sampleCompare
          [mkPlan (js "Dental") [js "Bob", js "alice", js "BOB", js "?", js "Alice"] [] [] []]
          [mkPlan (js "Vision") [js "Bob"] [] [] []]).map
        (fun pc => (pc.planName, pc.sections SectionKey.customerOnly)))
        = [(js "Dental", { inBoth := [], onlyLeft := [js "alice", js "Bob"], onlyRight := [],
                           exactSame := false }),
           (js "Vision", { inBoth := [], onlyLeft := [], onlyRight := [js "Bob"],
                           exactSame := false })] := by
  refine ⟨?_, by decide⟩
  intro lc L R name hL hR
  obtain ⟨p, hp⟩ := find?_reverse_some L name hL
  refine ⟨p, hp, ?_, ?_⟩
  · have hmem : name ∈ (compareSides lc L R).map PlanComparison.planName := by
      rw [(compareSides_planNames_eq lc L R), mem_sortBy, mem_newSet, List.mem_append,
        List.mem_map]
      exact Or.inl hL
    rw [List.mem_map] at hmem
    obtain ⟨pc, hpc, hname⟩ := hmem
    exact ⟨pc, hpc, hname⟩
  · intro pc hpc hname key
    have hsec := mem_compareSides lc L R pc hpc key
    rw [hname, hp, find?_reverse_none R name hR] at hsec
    simp only at hsec
    rw [hsec]
    exact ⟨(compareNameSets_right_nil lc _).1, (compareNameSets_right_nil lc _).2,
      onlyLeft_keys_right_nil lc _, fun e he => onlyLeft_first_raw lc _ [] e he⟩

/-- C6 at concrete plan lists: "Dental" occurs on the left only. -/
theorem compareSides_left_only_witness :
    ∃ p, [mkPlan (js "Dental") [js "Bob", js "alice", js "BOB", js "?", js "Alice"] [] [] []].reverse.find?
          (fun q => decide (trim q.planName = js "Dental")) = some p ∧
      (∃ pc ∈ compareSides sampleCompare
          [mkPlan (js "Dental") [js "Bob", js "alice", js "BOB", js "?", js "Alice"] [] [] []]
          [mkPlan (js "Vision") [js "Bob"] [] [] []], pc.planName = js "Dental") :=
  let ⟨p, hp, hex, _⟩ := compareSides_left_only.1 sampleCompare
    [mkPlan (js "Dental") [js "Bob", js "alice", js "BOB", js "?", js "Alice"] [] [] []]
    [mkPlan (js "Vision") [js "Bob"] [] [] []] (js "Dental")
    ⟨_, List.mem_cons_self _ _, by decide⟩
    (by
      intro q hq
      rw [List.mem_singleton] at hq
      subst hq
      decide)
  ⟨p, hp, hex⟩

/-! ## Lemmas on `makeSheetName` -/

theorem decimalDigits_length (fuel n k : Nat) (hk : 0 < k) (hn : n < 10 ^ k) :
    (decimalDigits fuel n).length ≤ k := by
  induction fuel generalizing n k with
  | zero => simp [decimalDigits]
  | succ f ih =>
    unfold decimalDigits
    by_cases h : n < 10
    · simp only [h, if_true, List.length_singleton]
      omega
    · simp only [h, if_false, List.length_append, List.length_singleton]
      obtain ⟨j, rfl⟩ : ∃ j, k = j + 1 := ⟨k - 1, by omega⟩
      have hj : 0 < j := by
        rcases Nat.eq_zero_or_pos j with h0 | h0
        · subst h0
          simp at hn
          omega
        · exact h0
      have hdiv : n / 10 < 10 ^ j := by
        apply Nat.div_lt_of_lt_mul
        rw [pow_succ] at hn
        omega
      have := ih (n / 10) j hj hdiv
      omega

theorem decimalDigits_range (fuel n : Nat) :
    ∀ c ∈ decimalDigits fuel n, 48 ≤ c ∧ c ≤ 57 := by
  induction fuel generalizing n with
  | zero => simp [decimalDigits]
  | succ f ih =>
    unfold decimalDigits
    by_cases h : n < 10
    · simp only [h, if_true, List.mem_singleton]
      intro c hc
      omega
    · simp only [h, if_false, List.mem_append, List.mem_singleton]
      intro c hc
      rcases hc with hc | hc
      · exact ih _ c hc
      · omega

theorem decimalValue_append (l : JSString) (c : Nat) :
    decimalValue (l ++ [c]) = 10 * decimalValue l + (c - 48) := by
  simp [decimalValue, List.foldl_append]

theorem decimalValue_decimalDigits (fuel n : Nat) (hn : n < 10 ^ fuel) :
    decimalValue (decimalDigits fuel n) = n := by
  induction fuel generalizing n with
  | zero =>
    simp at hn
    subst hn
    rfl
  | succ f ih =>
    unfold decimalDigits
    by_cases h : n < 10
    · simp [h, decimalValue]
    · simp only [h, if_false]
      have hdiv : n / 10 < 10 ^ f := by
        apply Nat.div_lt_of_lt_mul
        rw [pow_succ] at hn
        omega
      rw [decimalValue_append, ih _ hdiv]
      omega

theorem decimalValue_numberToString (n : Nat) : decimalValue (numberToString n) = n := by
  unfold numberToString
  apply decimalValue_decimalDigits
  calc n < 10 ^ n := Nat.lt_pow_self (by norm_num) n
    _ ≤ 10 ^ (n + 1) := Nat.pow_le_pow_right (by norm_num) (Nat.le_succ n)

theorem numberToString_injective (n m : Nat) (h : numberToString n = numberToString m) :
    n = m := by
  have := congrArg decimalValue h
  rwa [decimalValue_numberToString, decimalValue_numberToString] at this

theorem numberToString_length (n k : Nat) (hk : 0 < k) (hn : n < 10 ^ k) :
    (numberToString n).length ≤ k :=
  decimalDigits_length _ n k hk hn

theorem numberToString_no_paren (n : Nat) : (40 : Nat) ∉ numberToString n := by
  intro h
  have := decimalDigits_range _ n 40 h
  omega

theorem split_at_last (a : Nat) (l1 l2 r1 r2 : List Nat) (h1 : a ∉ r1) (h2 : a ∉ r2)
    (h : l1 ++ a :: r1 = l2 ++ a :: r2) : r1 = r2 := by
  have hrev := congrArg List.reverse h
  simp only [List.reverse_append, List.reverse_cons, List.append_assoc,
    List.singleton_append] at hrev
  have key : ∀ (x y u v : List Nat), a ∉ x → a ∉ y → x ++ a :: u = y ++ a :: v → x = y := by
    intro x
    induction x with
    | nil =>
      intro y u v _ hy hxy
      cases y with
      | nil => rfl
      | cons b y =>
        simp only [List.nil_append, List.cons_append, List.cons.injEq] at hxy
        exact absurd (by rw [hxy.1]; exact List.mem_cons_self _ _) hy
    | cons b x ih =>
      intro y u v hx hy hxy
      cases y with
      | nil =>
        simp only [List.nil_append, List.cons_append, List.cons.injEq] at hxy
        exact absurd (by rw [← hxy.1]; exact List.mem_cons_self _ _) hx
      | cons c y =>
        simp only [List.cons_append, List.cons.injEq] at hxy
        rw [hxy.1, ih y u v (fun hm => hx (List.mem_cons_of_mem _ hm))
          (fun hm => hy (List.mem_cons_of_mem _ hm)) hxy.2]
  have := key r1.reverse r2.reverse l1.reverse l2.reverse
    (by simpa using h1) (by simpa using h2) hrev
  exact List.reverse_injective this

theorem sheetCandidate_injective (cleaned : JSString) (n m : Nat)
    (h : sheetCandidate cleaned n = sheetCandidate cleaned m) : n = m := by
  unfold sheetCandidate sheetSuffix at h
  have hjs1 : js " (" = [32, 40] := by decide
  have hjs2 : js ")" = [41] := by decide
  simp only [hjs1, hjs2] at h
  have h' : (List.take (31 - ([32, 40] ++ numberToString n ++ [41]).length) cleaned ++ [32])
        ++ 40 :: (numberToString n ++ [41])
      = (List.take (31 - ([32, 40] ++ numberToString m ++ [41]).length) cleaned ++ [32])
        ++ 40 :: (numberToString m ++ [41]) := by
    simpa using h
  have hn : (40 : Nat) ∉ numberToString n ++ [41] := by
    simp [numberToString_no_paren]
  have hm : (40 : Nat) ∉ numberToString m ++ [41] := by
    simp [numberToString_no_paren]
  have := split_at_last 40 _ _ _ _ hn hm h'
  exact numberToString_injective n m (List.append_cancel_right this)

theorem sheetSuffix_length (n : Nat) : (sheetSuffix n).length = (numberToString n).length + 3 := by
  have hjs1 : js " (" = [32, 40] := by decide
  have hjs2 : js ")" = [41] := by decide
  simp [sheetSuffix, hjs1, hjs2]

theorem sheetCandidate_length (cleaned : JSString) (n : Nat) (hn : n < 10 ^ 28) :
    (sheetCandidate cleaned n).length ≤ 31 := by
  have h1 := numberToString_length n 28 (by norm_num) hn
  have h2 := sheetSuffix_length n
  unfold sheetCandidate
  simp only [List.length_append, List.length_take]
  omega

theorem cleanedSheetName_length (p : JSString) : (cleanedSheetName p).length ≤ 31 := by
  rw [cleanedSheetName_eq]
  split
  · decide
  · rw [List.length_take]
    omega

theorem sheetLoop_spec (cleaned : JSString) (existing : List JSString) (fuel k : Nat)
    (r : JSString)
    (h : sheetLoop cleaned existing fuel (candidateAt cleaned k) (k + 1) = some r) :
    ∃ j, k ≤ j ∧ r = candidateAt cleaned j ∧ r ∉ existing ∧
      ∀ i, k ≤ i → i < j → candidateAt cleaned i ∈ existing := by
  induction fuel generalizing k with
  | zero => simp [sheetLoop] at h
  | succ f ih =>
    unfold sheetLoop at h
    by_cases hc : setHas existing (candidateAt cleaned k) = true
    · rw [if_pos hc] at h
      obtain ⟨j, hkj, hr, hnot, hall⟩ := ih (k + 1) h
      refine ⟨j, by omega, hr, hnot, ?_⟩
      intro i hki hij
      rcases Nat.eq_or_lt_of_le hki with heq | hlt
      · rw [← heq]
        exact (setHas_iff _ _).mp hc
      · exact hall i hlt hij
    · rw [if_neg hc] at h
      have hr : r = candidateAt cleaned k := (Option.some.inj h).symm
      refine ⟨k, le_refl k, hr, ?_, ?_⟩
      · rw [hr]
        intro hmem
        exact hc ((setHas_iff _ _).mpr hmem)
      · intro i hki hik
        omega

theorem sheetLoop_isSome (cleaned : JSString) (existing : List JSString) (fuel k : Nat)
    (h : ∃ j, k ≤ j ∧ j < k + fuel ∧ candidateAt cleaned j ∉ existing) :
    ∃ r, sheetLoop cleaned existing fuel (candidateAt cleaned k) (k + 1) = some r := by
  induction fuel generalizing k with
  | zero =>
    obtain ⟨j, h1, h2, _⟩ := h
    omega
  | succ f ih =>
    unfold sheetLoop
    by_cases hc : setHas existing (candidateAt cleaned k) = true
    · rw [if_pos hc]
      obtain ⟨j, h1, h2, h3⟩ := h
      have hjk : j ≠ k := by
        intro heq
        rw [heq] at h3
        exact h3 ((setHas_iff _ _).mp hc)
      exact ih (k + 1) ⟨j, by omega, by omega, h3⟩
    · rw [if_neg hc]
      exact ⟨_, rfl⟩

/-- At most `existing.length` of the numbered candidates can be in use. -/
theorem candidates_in_use (cleaned : JSString) (existing : List JSString) (N : Nat)
    (h : ∀ i, 1 ≤ i → i ≤ N → candidateAt cleaned i ∈ existing) : N ≤ existing.length := by
  have hnd : ((List.range N).map (fun i => candidateAt cleaned (i + 1))).Nodup := by
    apply List.Nodup.map_on _ (List.nodup_range N)
    intro x _ y _ hxy
    have := sheetCandidate_injective cleaned (x + 1) (y + 1) hxy
    omega
  have hsub : (List.range N).map (fun i => candidateAt cleaned (i + 1)) ⊆ existing := by
    intro c hc
    rw [List.mem_map] at hc
    obtain ⟨i, hi, rfl⟩ := hc
    rw [List.mem_range] at hi
    exact h (i + 1) (by omega) (by omega)
  have := (List.subperm_of_subset hnd hsub).length_le
  simpa using this

theorem free_candidate (cleaned : JSString) (existing : List JSString) :
    ∃ j, j ≤ existing.length + 1 ∧ candidateAt cleaned j ∉ existing := by
  by_contra hcon
  have hall : ∀ i, 1 ≤ i → i ≤ existing.length + 1 → candidateAt cleaned i ∈ existing := by
    intro i _ hi
    by_contra hni
    exact hcon ⟨i, hi, hni⟩
  have := candidates_in_use cleaned existing (existing.length + 1) hall
  omega

theorem makeSheetName_spec (fuel : Nat) (p : JSString) (existing : List JSString)
    (name : JSString) (used : List JSString)
    (h : makeSheetName fuel p existing = some (name, used)) :
    ∃ j, j ≤ existing.length + 1 ∧ name = candidateAt (cleanedSheetName p) j ∧
      name ∉ existing ∧ used = existing ++ [name] ∧
      ∀ i, i < j → candidateAt (cleanedSheetName p) i ∈ existing := by
  unfold makeSheetName at h
  simp only [Option.map_eq_some'] at h
  obtain ⟨r, hr, hpair⟩ := h
  simp only [Prod.mk.injEq] at hpair
  obtain ⟨j, _, hrj, hnot, hall⟩ := sheetLoop_spec (cleanedSheetName p) existing fuel 0 r hr
  refine ⟨j, ?_, ?_, ?_, ?_, ?_⟩
  · have := candidates_in_use (cleanedSheetName p) existing (j - 1)
      (fun i h1 h2 => hall i (Nat.zero_le i) (by omega))
    omega
  · rw [← hpair.1, hrj]
  · rw [← hpair.1]
    exact hnot
  · rw [← hpair.2, ← hpair.1]
    unfold setAdd
    rw [if_neg hnot]
  · intro i hi
    exact hall i (Nat.zero_le i) hi

theorem makeSheetName_isSome (fuel : Nat) (p : JSString) (existing : List JSString)
    (hfuel : existing.length + 2 ≤ fuel) :
    ∃ name used, makeSheetName fuel p existing = some (name, used) := by
  obtain ⟨j, hj, hfree⟩ := free_candidate (cleanedSheetName p) existing
  obtain ⟨r, hr⟩ := sheetLoop_isSome (cleanedSheetName p) existing fuel 0
    ⟨j, Nat.zero_le j, by omega, hfree⟩
  refine ⟨r, setAdd existing r, ?_⟩
  unfold makeSheetName
  simp only
  have hr' : sheetLoop (cleanedSheetName p) existing fuel (cleanedSheetName p) 1 = some r := hr
  rw [hr']
  rfl

theorem candidateAt_length (cleaned : JSString) (j : Nat) (hc : cleaned.length ≤ 31)
    (hj : j < 10 ^ 28) : (candidateAt cleaned j).length ≤ 31 := by
  cases j with
  | zero => exact hc
  | succ n => exact sheetCandidate_length cleaned (n + 1) hj

theorem buildSheets_spec (fuel : Nat) (results : List PlanComparison) (used : List JSString)
    (hfuel : used.length + results.length < fuel) :
    ∃ sheets, buildSheets fuel results used = some sheets ∧
      sheets.map Sheet.rows = results.map planRows ∧
      (sheets.map Sheet.name).Nodup ∧
      ∀ s ∈ sheets, s.name ∉ used ∧
        (used.length + results.length < 10 ^ 28 → s.name.length ≤ 31) := by
  induction results generalizing used with
  | nil => exact ⟨[], rfl, rfl, List.nodup_nil, by simp⟩
  | cons plan rest ih =>
    simp only [List.length_cons] at hfuel
    obtain ⟨name, used', hmk⟩ := makeSheetName_isSome fuel plan.planName used (by omega)
    obtain ⟨j, hj, hname, hnot, hused, _⟩ := makeSheetName_spec fuel plan.planName used name used' hmk
    have hlen' : used'.length = used.length + 1 := by
      rw [hused]
      simp
    obtain ⟨sheets, hb, hrows, hnd, hall⟩ := ih used' (by omega)
    refine ⟨{ name := name, rows := planRows plan } :: sheets, ?_, ?_, ?_, ?_⟩
    · unfold buildSheets
      rw [hmk]
      simp only [hb, Option.map_some']
    · simp only [List.map_cons, hrows]
    · simp only [List.map_cons, List.nodup_cons]
      refine ⟨?_, hnd⟩
      intro hmem
      rw [List.mem_map] at hmem
      obtain ⟨s, hs, hsn⟩ := hmem
      apply (hall s hs).1
      rw [hused, hsn]
      simp
    · intro s hs
      rw [List.mem_cons] at hs
      rcases hs with rfl | hs
      · refine ⟨hnot, ?_⟩
        intro hsize
        simp only [List.length_cons] at hsize
        simp only
        rw [hname]
        exact candidateAt_length _ j (cleanedSheetName_length _) (by omega)
      · refine ⟨?_, ?_⟩
        · intro hmem
          apply (hall s hs).1
          rw [hused]
          exact List.mem_append_left _ hmem
        · intro hsize
          simp only [List.length_cons] at hsize
          exact (hall s hs).2 (by omega)

/-! ## Lemmas on the grid of a plan -/

theorem pushAll_eq (entries : List Entry) (names : List JSString) (result : JSString) :
    pushAll entries names result
      = entries ++ names.map (fun n => { name := n, result := result }) := by
  unfold pushAll
  induction names generalizing entries with
  | nil => simp
  | cons n ns ih =>
    rw [List.foldl_cons, ih]
    simp

theorem sectionEntries_eq (sec : SectionComparison) :
    sectionEntries sec
      = (labelledEntries sec).map (fun e => { name := e.1, result := e.2 }) := by
  unfold sectionEntries labelledEntries
  rw [pushAll_eq, pushAll_eq, pushAll_eq]
  simp [Function.comp_def]

theorem sectionEntries_length (sec : SectionComparison) :
    (sectionEntries sec).length = (labelledEntries sec).length := by
  rw [sectionEntries_eq, List.length_map]

theorem sectionEntries_get (sec : SectionComparison) (i : Nat) :
    (sectionEntries sec)[i]?
      = ((labelledEntries sec)[i]?).map (fun e => { name := e.1, result := e.2 }) := by
  rw [sectionEntries_eq, List.getElem?_map]

theorem maxRows_eq (plan : PlanComparison) :
    maxRows plan
      = max (max (max (max 1 (labelledEntries (plan.sections SectionKey.reconciled)).length)
            (labelledEntries (plan.sections SectionKey.unreconciled)).length)
          (labelledEntries (plan.sections SectionKey.customerOnly)).length)
        (labelledEntries (plan.sections SectionKey.invoiceOnly)).length := by
  simp [maxRows, perSectionRows, sectionOrder, sectionEntries_length]

theorem dataRow_length (sections : List (SectionKey × List Entry)) (i : Nat) :
    (dataRow sections i).length = 8 := by
  unfold dataRow
  have key : ∀ (row : List JSString), row.length = 8 →
      (sections.foldl
        (fun row s =>
          match s.2[i]? with
          | some entry => (row.set (nameCol s.1) entry.name).set (resultCol s.1) entry.result
          | none => row) row).length = 8 := by
    induction sections with
    | nil => intro row h; exact h
    | cons s t ih =>
      intro row h
      rw [List.foldl_cons]
      apply ih
      cases s.2[i]? <;> simp [h]
  exact key _ (by simp)

theorem dataRow_cells (plan : PlanComparison) (i : Nat) (s : SectionKey) :
    (dataRow (perSectionRows plan) i)[nameCol s]?
        = some (match (labelledEntries (plan.sections s))[i]? with
                | some e => e.1
                | none => []) ∧
    (dataRow (perSectionRows plan) i)[resultCol s]?
        = some (match (labelledEntries (plan.sections s))[i]? with
                | some e => e.2
                | none => []) := by
  simp only [dataRow, perSectionRows, sectionOrder, List.map_cons, List.map_nil, List.foldl_cons,
    List.foldl_nil, sectionEntries_get]
  cases s <;>
  generalize (labelledEntries (plan.sections SectionKey.reconciled))[i]? = a <;>
  generalize (labelledEntries (plan.sections SectionKey.unreconciled))[i]? = b <;>
  generalize (labelledEntries (plan.sections SectionKey.customerOnly))[i]? = c <;>
  generalize (labelledEntries (plan.sections SectionKey.invoiceOnly))[i]? = d <;>
  cases a <;> cases b <;> cases c <;> cases d <;>
  simp [nameCol, resultCol, List.replicate, List.set, List.getElem?_cons_succ]

theorem buildExcelWorkbook_nonempty (fuel : Nat) (generated : JSString)
    (results : List PlanComparison) (hne : results ≠ []) :
    buildExcelWorkbook fuel generated results = buildSheets fuel results [] := by
  unfold buildExcelWorkbook
  rw [if_neg]
  rw [List.length_eq_zero]
  exact hne

/-! ## The claims on the workbook -/

/-- C7. Sheet names of one workbook.  For every list of fewer than `2 ^ 32`
plan comparisons (the largest length an array can have) and enough fuel for
the loop of `makeSheetName`, `buildExcelWorkbook` returns sheets whose names
are pairwise distinct and at most 31 code units long.  A call of
`makeSheetName` with enough fuel returns a name that is not in the set and
adds it to the set; the name is `cleaned` itself, or `cleaned` is in use and
the name is `cleaned` cut to `31 - suffix.length` code units followed by the
suffix `" (n)"` for the least `n ≥ 1` whose candidate is free.  Worked
example: two plans named by the same 40 letters. -/
theorem sheet_names_distinct :
    (∀ (fuel : Nat) (generated : JSString) (results : List PlanComparison),
      results.length < 2 ^ 32 → results.length < fuel →
      ∃ sheets, buildExcelWorkbook fuel generated results = some sheets ∧
        (sheets.map Sheet.name).Nodup ∧ ∀ s ∈ sheets, s.name.length ≤ 31) ∧
    (∀ (fuel : Nat) (planName : JSString) (existingNames : List JSString),
      existingNames.length + 2 ≤ fuel →
      ∃ name, makeSheetName fuel planName existingNames = some (name, existingNames ++ [name]) ∧
        name ∉ existingNames ∧
        (name = cleanedSheetName planName ∨
          (cleanedSheetName planName ∈ existingNames ∧
            ∃ n, 1 ≤ n ∧
              name = (cleanedSheetName planName).take
                        (31 - (js " (" ++ numberToString n ++ js ")").length)
                      ++ (js " (" ++ numberToString n ++ js ")") ∧
              ∀ m, 1 ≤ m → m < n →
                (cleanedSheetName planName).take
                    (31 - (js " (" ++ numberToString m ++ js ")").length)
                  ++ (js " (" ++ numberToString m ++ js ")") ∈ existingNames))) ∧
    (buildExcelWorkbook 3 (js "2026-01-01T00:00:00.000Z")
        [uniformComparison (List.replicate 40 65) (compareNameSets sampleCompare [] []),
         uniformComparison (List.replicate 40 65) (compareNameSets sampleCompare [] [])]).map
      (fun sheets => sheets.map Sheet.name)
      = some [List.replicate 31 65, List.replicate 27 65 ++ js " (1)"] := by
  refine ⟨?_, ?_, by decide⟩
  · intro fuel generated results hsize hfuel
    by_cases hne : results = []
    · subst hne
      refine ⟨_, rfl, ?_, ?_⟩
      · simp
      · intro s hs
        rw [List.mem_singleton] at hs
        subst hs
        show (js "Summary").length ≤ 31
        decide
    · rw [buildExcelWorkbook_nonempty fuel generated results hne]
      obtain ⟨sheets, hb, _, hnd, hall⟩ := buildSheets_spec fuel results [] (by simpa using hfuel)
      refine ⟨sheets, hb, hnd, ?_⟩
      intro s hs
      apply (hall s hs).2
      simp only [List.length_nil, Nat.zero_add]
      calc results.length < 2 ^ 32 := hsize
        _ ≤ 10 ^ 28 := by norm_num
  · intro fuel p existing hfuel
    obtain ⟨name, used, hmk⟩ := makeSheetName_isSome fuel p existing hfuel
    obtain ⟨j, _, hname, hnot, hused, hall⟩ := makeSheetName_spec fuel p existing name used hmk
    refine ⟨name, by rw [hmk, hused], hnot, ?_⟩
    cases j with
    | zero => exact Or.inl hname
    | succ n =>
      right
      refine ⟨hall 0 (Nat.succ_pos n), n + 1, Nat.succ_pos n, hname, ?_⟩
      intro m hm1 hmn
      obtain ⟨m', rfl⟩ : ∃ m', m = m' + 1 := ⟨m - 1, by omega⟩
      exact hall (m' + 1) hmn

/-- C7 at a concrete workbook: two plans named by the same 40 letters. -/
theorem sheet_names_distinct_witness :
    ∃ sheets, buildExcelWorkbook 3 (js "2026-01-01T00:00:00.000Z")
        [uniformComparison (List.replicate 40 65) (compareNameSets sampleCompare [] []),
         uniformComparison (List.replicate 40 65) (compareNameSets sampleCompare [] [])]
        = some sheets ∧
      (sheets.map Sheet.name).Nodup ∧ ∀ s ∈ sheets, s.name.length ≤ 31 :=
  sheet_names_distinct.1 3 (js "2026-01-01T00:00:00.000Z")
    [uniformComparison (List.replicate 40 65) (compareNameSets sampleCompare [] []),
     uniformComparison (List.replicate 40 65) (compareNameSets sampleCompare [] [])]
    (by decide) (by decide)

/-- C8. The grid of each plan.  For every non-empty list of plan comparisons
and enough fuel, `buildExcelWorkbook` returns one sheet per plan, in order;
the rows of a plan's sheet are the fixed header row followed by
`max(1, largest entry count of the four sections)` data rows, each of 8
cells, where the entries of a section are its `inBoth` names labelled
"In Both", then `onlyLeft`, then `onlyRight`, and data row `i` holds in the
two columns of section `s` the name and the label of the `i`-th entry of `s`
when there is one and two empty strings otherwise; the column pairs are
reconciled 0-1, unreconciled 2-3, customerOnly 4-5, invoiceOnly 6-7. -/
theorem workbook_grid :
    (∀ (fuel : Nat) (generated : JSString) (results : List PlanComparison),
      results ≠ [] → results.length < fuel →
      ∃ sheets, buildExcelWorkbook fuel generated results = some sheets ∧
        sheets.length = results.length ∧
        ∀ (j : Nat) (plan : PlanComparison) (sheet : Sheet),
          results[j]? = some plan → sheets[j]? = some sheet →
          ∃ dataRows, sheet.rows = headerRow :: dataRows ∧
            dataRows.length
              = max 1 (max (max (max
                  (labelledEntries (plan.sections SectionKey.reconciled)).length
                  (labelledEntries (plan.sections SectionKey.unreconciled)).length)
                  (labelledEntries (plan.sections SectionKey.customerOnly)).length)
                  (labelledEntries (plan.sections SectionKey.invoiceOnly)).length) ∧
            ∀ (i : Nat) (row : List JSString), dataRows[i]? = some row →
              row.length = 8 ∧
              ∀ s : SectionKey,
                row[nameCol s]? = some (match (labelledEntries (plan.sections s))[i]? with
                                        | some e => e.1
                                        | none => []) ∧
                row[resultCol s]? = some (match (labelledEntries (plan.sections s))[i]? with
                                          | some e => e.2
                                          | none => [])) ∧
    headerRow = [js "Reconciled", js "Result", js "Unreconciled", js "Result",
                 js "Customer Only", js "Result", js "Invoice Only", js "Result"] ∧
    (nameCol SectionKey.reconciled = 0 ∧ resultCol SectionKey.reconciled = 1 ∧
     nameCol SectionKey.unreconciled = 2 ∧ resultCol SectionKey.unreconciled = 3 ∧
     nameCol SectionKey.customerOnly = 4 ∧ resultCol SectionKey.customerOnly = 5 ∧
     nameCol SectionKey.invoiceOnly = 6 ∧ resultCol SectionKey.invoiceOnly = 7) ∧
    (∀ sec : SectionComparison,
      labelledEntries sec
        = sec.inBoth.map (fun n => (n, js "In Both"))
          ++ sec.onlyLeft.map (fun n => (n, js "Only OneKonnect"))
          ++ sec.onlyRight.map (fun n => (n, js "Only Puzzle"))) := by
  refine ⟨?_, rfl, ⟨rfl, rfl, rfl, rfl, rfl, rfl, rfl, rfl⟩, fun _ => rfl⟩
  intro fuel generated results hne hfuel
  rw [buildExcelWorkbook_nonempty fuel generated results hne]
  obtain ⟨sheets, hb, hrows, _, _⟩ := buildSheets_spec fuel results [] (by simpa using hfuel)
  have hlen : sheets.length = results.length := by
    have := congrArg List.length hrows
    simpa using this
  refine ⟨sheets, hb, hlen, ?_⟩
  intro j plan sheet hplan hsheet
  have hrow : sheet.rows = planRows plan := by
    have := congrArg (fun l => l[j]?) hrows
    simp only [List.getElem?_map, hplan, hsheet, Option.map_some', Option.some.injEq] at this
    exact this
  refine ⟨(List.range (maxRows plan)).map (dataRow (perSectionRows plan)), ?_, ?_, ?_⟩
  · rw [hrow]
    rfl
  · rw [List.length_map, List.length_range, maxRows_eq]
    omega
  · intro i row hi
    rw [List.getElem?_map] at hi
    cases hr : (List.range (maxRows plan))[i]? with
    | none => rw [hr] at hi; simp at hi
    | some i' =>
      rw [hr] at hi
      simp only [Option.map_some', Option.some.injEq] at hi
      have hii : i' = i := by
        rw [List.getElem?_eq_some_iff] at hr
        obtain ⟨_, h2⟩ := hr
        simpa using h2.symm
      subst hii
      subst hi
      exact ⟨dataRow_length _ _, fun s => dataRow_cells plan i' s⟩

/-- C8 at a concrete workbook: one plan whose customer-only section has one
name on both sides and one on the left only. -/
theorem workbook_grid_witness :
    ∃ sheets, buildExcelWorkbook 2 (js "2026-01-01T00:00:00.000Z")
        (compareSides sampleCompare
          [mkPlan (js "Dental") [js "Bob", js "Ann"] [] [] []]
          [mkPlan (js "Dental") [js "bob"] [] [] []]) = some sheets ∧
      sheets.map Sheet.rows
        = [[headerRow,
            [[], [], [], [], js "Bob", js "In Both", [], []],
            [[], [], [], [], js "Ann", js "Only OneKonnect", [], []]]] :=
  let ⟨sheets, h, _, _⟩ := workbook_grid.1 2 (js "2026-01-01T00:00:00.000Z")
    (compareSides sampleCompare
      [mkPlan (js "Dental") [js "Bob", js "Ann"] [] [] []]
      [mkPlan (js "Dental") [js "bob"] [] [] []])
    (by simp [compareSides, newSet, setAdd, sortBy, mkPlan]) (by decide)
  ⟨sheets, h, by
    have h2 : buildExcelWorkbook 2 (js "2026-01-01T00:00:00.000Z")
        (compareSides sampleCompare
          [mkPlan (js "Dental") [js "Bob", js "Ann"] [] [] []]
          [mkPlan (js "Dental") [js "bob"] [] [] []])
        = some [{ name := js "Dental",
                  rows := [headerRow,
                    [[], [], [], [], js "Bob", js "In Both", [], []],
                    [[], [], [], [], js "Ann", js "Only OneKonnect", [], []]] }] := by decide
    rw [h2] at h
    rw [← Option.some.inj h]
    rfl⟩
end AuditTool
